import Mathlib

/-!
Verification development for the pseo-card-site static-site generator.

The repository has two Python source files:

* src/update_site.py — the metadata-driven pipeline: it parses an embedded
  metadata comment block from each content file (parse_meta_from_html),
  builds a normalized page record (get_page_info), collects and sorts the
  pages (collect_pages), and renders the index page, the per-tag pages and
  the sitemap (generate_index_html, generate_tag_pages, generate_sitemap_xml,
  main).
* src/generate.py — the tabular variant: substitutes "\x7b\x7bkey\x7d\x7d"
  placeholders of a template with CSV row values.

The Python code is embedded shallowly:

* Python strings are Lean String values; all character-level processing is
  done structurally on the underlying List Char so that every definition
  evaluates inside the kernel.  The whitespace set used by str.strip and by
  the regex class backslash-s is modelled by its ASCII part (the source data
  is ASCII in all relevant places); str.lower is modelled on ASCII letters.
* The filesystem is explicit data: a content file is its relative path
  (forward-slash separated, as on the Linux host the tool targets), its
  text content, and its stat-derived modification date already formatted as
  YYYY-MM-DD in local time (datetime.fromtimestamp(mtime).strftime, an
  environment-supplied value).  The tag output directory is a flat list of
  file names in enumeration order; writing appends unseen names and
  overwrites seen ones in place, which models a POSIX directory as seen by
  os.scandir / Path.glob.  Tag names containing a path separator would in
  reality address a subdirectory (and make write_text fail); theorems that
  need to rule this out carry an explicit hypothesis.
* list.sort(key=..., reverse=True) is a stable descending sort; it is
  modelled by a stable insertion sort on the same key, together with proofs
  of sortedness and stability, which characterize the Python sort uniquely.
* datetime.utcnow() is an explicit parameter of the renderers.
-/

set_option maxRecDepth 100000

namespace PseoSite

/-! ### Python string primitives, modelled on List Char -/

/-- ASCII part of the Python whitespace class used by str.strip and by the
regex class backslash-s: space, tab, newline, carriage return, vertical tab,
form feed. -/
def pyIsSpace (c : Char) : Bool :=
  c = ' ' || c = '\t' || c = '\n' || c = '\r' || c = '\x0b' || c = '\x0c'

/-- Python str.strip(): drop whitespace from both ends. -/
def pyStripL (l : List Char) : List Char :=
  ((l.dropWhile pyIsSpace).reverse.dropWhile pyIsSpace).reverse

/-- Python str.strip() on a String. -/
def pyStrip (s : String) : String := ⟨pyStripL s.data⟩

/-- Python str.lower(), ASCII part (Char.toLower lowers exactly A-Z). -/
def pyLower (s : String) : String := ⟨s.data.map Char.toLower⟩

/-- Characters Python str.splitlines treats as line boundaries (the
carriage-return + newline pair is one boundary, handled in splitLinesPy). -/
def pyIsLineBreak (c : Char) : Bool :=
  c = '\n' || c = '\r' || c = '\x0b' || c = '\x0c' ||
  c = '\x1c' || c = '\x1d' || c = '\x1e' || c = '\x85' ||
  c = '\u2028' || c = '\u2029'

/-- Worker for splitLinesPy; acc holds the current line reversed. -/
def splitLinesAux (acc : List Char) : List Char → List (List Char)
  | [] => if acc.isEmpty then [] else [acc.reverse]
  | '\r' :: '\n' :: r => acc.reverse :: splitLinesAux [] r
  | c :: r =>
    if pyIsLineBreak c then acc.reverse :: splitLinesAux [] r
    else splitLinesAux (c :: acc) r

/-- Python str.splitlines(): split at line boundaries, no trailing empty
line for a trailing terminator. -/
def splitLinesPy (l : List Char) : List (List Char) := splitLinesAux [] l

/-- Python value.split(",") on the character list: split at every comma,
keeping empty pieces. -/
def splitCommaAux (acc : List Char) : List Char → List (List Char)
  | [] => [acc.reverse]
  | ',' :: r => acc.reverse :: splitCommaAux [] r
  | c :: r => splitCommaAux (c :: acc) r

/-- Python value.split(",") on a String. -/
def splitComma (s : String) : List String :=
  (splitCommaAux [] s.data).map (fun l => ⟨l⟩)

/-- Python lexicographic string comparison (code-point order), as used by
list.sort on str keys.  Returns true iff the first list is strictly
smaller. -/
def listLt : List Char → List Char → Bool
  | [], [] => false
  | [], _ :: _ => true
  | _ :: _, [] => false
  | a :: as, b :: bs => if a < b then true else if b < a then false else listLt as bs

/-- Does pat occur as a prefix here or further right?  Models Python's
substring containment (the in operator / str.find succeeding). -/
def hasSubList (p : List Char) : List Char → Bool
  | [] => p.isEmpty
  | c :: r => p.isPrefixOf (c :: r) || hasSubList p r

/-- Substring containment on Strings. -/
def strContains (s pat : String) : Bool := hasSubList pat.data s.data

/-- Count the occurrences of pat (at every position, as str.count does for
the non-overlapping patterns used here). -/
def countSubList (p : List Char) : List Char → Nat
  | [] => 0
  | c :: r => (if p.isPrefixOf (c :: r) then 1 else 0) + countSubList p r

/-- Python str.replace(pat, rep) for a non-empty pat: scan left to right,
replace each non-overlapping occurrence, never rescanning the replacement.
The fuel is the text length; each step consumes at least one character. -/
def replaceFuel (pat rep : List Char) : Nat → List Char → List Char
  | 0, t => t
  | Nat.succ n, t =>
    match t with
    | [] => []
    | c :: r =>
      if pat.isPrefixOf (c :: r) then rep ++ replaceFuel pat rep n ((c :: r).drop pat.length)
      else c :: replaceFuel pat rep n r

/-- Python str.replace on Strings (all patterns in the sources are
non-empty, for which the fuel always suffices). -/
def pyReplace (s pat rep : String) : String :=
  ⟨replaceFuel pat.data rep.data s.data.length s.data⟩

/-! ### MetadataExtractor: parse_meta_from_html (src/update_site.py lines 15-27)

The regex is re.search of "<!--" backslash-s* "META" "(.*?)" "-->" with
IGNORECASE and DOTALL: the leftmost position where "<!--", a maximal
whitespace run (whitespace and the letter M are disjoint, so the greedy
star is deterministic) and a case-insensitive META match, captured lazily
up to the first subsequent "-->".  If a matching opener has no closer
anywhere to its right, no later opener can have one either, so the whole
search fails. -/

/-- Does the text start with the three closing characters? -/
def startsWithClose (l : List Char) : Bool := l.take 3 = ['-', '-', '>']

/-- Characters before the first "-->", if any. -/
def takeUntilClose : List Char → Option (List Char)
  | [] => none
  | c :: r =>
    if startsWithClose (c :: r) then some []
    else (takeUntilClose r).map (c :: ·)

/-- Does "-->" occur anywhere in the list? -/
def hasClose : List Char → Bool
  | [] => false
  | c :: r => startsWithClose (c :: r) || hasClose r

/-- Match "<!--" whitespace* "META" (case-insensitive) at the head,
returning the remainder after the marker. -/
def matchOpen : List Char → Option (List Char)
  | '<' :: '!' :: '-' :: '-' :: rest =>
    match rest.dropWhile pyIsSpace with
    | a :: b :: c :: d :: r =>
      if a.toLower = 'm' ∧ b.toLower = 'e' ∧ c.toLower = 't' ∧ d.toLower = 'a' then some r
      else none
    | _ => none
  | _ => none

/-- Leftmost regex match: the captured group of the first metadata block. -/
def findMetaBlock : List Char → Option (List Char)
  | [] => none
  | c :: r =>
    match matchOpen (c :: r) with
    | some rest => takeUntilClose rest
    | none => findMetaBlock r

/-- Python dict assignment: overwrite in place if the key exists, else
append. -/
def dictInsert (m : List (String × String)) (k v : String) : List (String × String) :=
  match m with
  | [] => [(k, v)]
  | (k', v') :: r => if k' = k then (k, v) :: r else (k', v') :: dictInsert r k v

/-- Python dict lookup (meta.get). -/
def dictGet (m : List (String × String)) (k : String) : Option String :=
  match m with
  | [] => none
  | (k', v) :: r => if k' = k then some v else dictGet r k

/-- One loop iteration of parse_meta_from_html: strip the line, skip it when
empty or without a colon, else split at the first colon into the lowered,
stripped key and the stripped value. -/
def lineEntry (l : List Char) : Option (String × String) :=
  let s := pyStripL l
  if s.isEmpty then none
  else
    match splitFirstColon s with
    | none => none
    | some (k, v) => some (⟨(pyStripL k).map Char.toLower⟩, ⟨pyStripL v⟩)
where
  /-- Python line.split(":", 1): the pieces before and after the first
  colon, when there is one. -/
  splitFirstColon : List Char → Option (List Char × List Char)
    | [] => none
    | ':' :: r => some ([], r)
    | c :: r => (splitFirstColon r).map (fun p => (c :: p.1, p.2))

/-- parse_meta_from_html: the dict built from the first metadata block, the
empty dict when there is none. -/
def parseMeta (text : String) : List (String × String) :=
  match findMetaBlock text.data with
  | none => []
  | some block =>
    (splitLinesPy block).foldl
      (fun m l =>
        match lineEntry l with
        | none => m
        | some (k, v) => dictInsert m k v)
      []

/-! ### PageModelBuilder: get_page_info (src/update_site.py lines 30-63) -/

/-- Module constants of src/update_site.py. -/
def BASE_URL : String := "https://compare-aything.com"

/-- Content root directory name. -/
def PAGES_DIR : String := "pages"

/-- Index output file name. -/
def INDEX_FILE : String := "index.html"

/-- Sitemap output file name. -/
def SITEMAP_FILE : String := "sitemap.xml"

/-- Tag output directory name. -/
def TAGS_DIR : String := "tags"

/-- One content file as the pipeline sees it: the path relative to the
content root (forward-slash separated), the file text, and the stat
modification time already formatted as YYYY-MM-DD in local time by
datetime.fromtimestamp(...).strftime("%Y-%m-%d"). -/
structure ContentFile where
  path : String
  content : String
  mtimeDate : String
deriving DecidableEq, Repr

/-- The normalized Page record returned by get_page_info. -/
structure Page where
  relPath : String
  urlPath : String
  url : String
  title : String
  description : String
  tags : List String
  category : String
  date : String
deriving DecidableEq, Repr

/-- Final path component (the file name), after the last slash. -/
def baseNameL (l : List Char) : List Char :=
  (splitSlash l).getLastD l
where
  /-- Split at every slash. -/
  splitSlash : List Char → List (List Char)
    | [] => [[]]
    | '/' :: r => [] :: splitSlash r
    | c :: r =>
      match splitSlash r with
      | [] => [[c]]
      | p :: ps => (c :: p) :: ps

/-- pathlib PurePath.stem: the file name without its last suffix; a suffix
must start after position zero and before the final character. -/
def stemOf (path : String) : String :=
  let name := baseNameL path.data
  match (name.reverse.dropWhile (· ≠ '.')) with
  | [] => ⟨name⟩
  | _ :: afterDotRev =>
    if (name.reverse.takeWhile (· ≠ '.')).isEmpty || afterDotRev.isEmpty then ⟨name⟩
    else ⟨afterDotRev.reverse⟩

/-- get_page_info: build the Page record for one content file. -/
def getPageInfo (f : ContentFile) : Page :=
  let relStr := f.path
  let urlPath := PAGES_DIR ++ "/" ++ relStr
  let url := BASE_URL ++ "/" ++ urlPath
  let meta := parseMeta f.content
  let title :=
    match dictGet meta "title" with
    | some t => if t = "" then stemOf f.path else t
    | none => stemOf f.path
  let tags :=
    match dictGet meta "tags" with
    | some v =>
      (splitComma v).filterMap (fun t =>
        let s := pyStrip t
        if s = "" then none else some s)
    | none => []
  let date :=
    match dictGet meta "date" with
    | some d => pyStrip d
    | none => f.mtimeDate
  { relPath := relStr
    urlPath := urlPath
    url := url
    title := title
    description := (dictGet meta "description").getD ""
    tags := tags
    category := (dictGet meta "category").getD ""
    date := date }

/-! ### Corpus Scanner: collect_pages (src/update_site.py lines 66-76)

The os.walk traversal order is the order of the input list; the name filter
is name.lower().endswith(".html"); the sort is list.sort with the date
string as key and reverse=True, which is the unique stable descending
reordering. -/

/-- Does the file name (last component, lowered) end in ".html"? -/
def isHtmlName (path : String) : Bool :=
  (".html".data).isSuffixOf ((baseNameL path.data).map Char.toLower)

/-- Insert into an already descending list: walk past strictly greater
dates, so that among equal dates the inserted (earlier-discovered) page
lands first.  This is the stable descending insertion step. -/
def insertDesc (p : Page) : List Page → List Page
  | [] => [p]
  | q :: r => if listLt p.date.data q.date.data then q :: insertDesc p r else p :: q :: r

/-- Stable sort by date descending, modelling pages.sort(key=date,
reverse=True). -/
def sortPages : List Page → List Page
  | [] => []
  | p :: l => insertDesc p (sortPages l)

/-- Pages in discovery order, before sorting. -/
def discoverPages (files : List ContentFile) : List Page :=
  (files.filter (fun f => isHtmlName f.path)).map getPageInfo

/-- collect_pages: discover, build, then sort by date descending. -/
def collectPages (files : List ContentFile) : List Page :=
  sortPages (discoverPages files)

/-! ### Index Renderer: generate_index_html (src/update_site.py lines 79-156) -/

/-- Join a list of strings with a separator, modelling str.join. -/
def joinSep (sep : String) : List String → String
  | [] => ""
  | [s] => s
  | s :: r => s ++ sep ++ joinSep sep r

/-- Tag anchors of one index entry, " / "-joined, in tag order. -/
def tagsHtmlOf (p : Page) : String :=
  if p.tags.isEmpty then ""
  else
    "<div class=\"tags\">"
      ++ joinSep " / " (p.tags.map (fun t =>
           "<a href=\"/" ++ TAGS_DIR ++ "/" ++ t ++ ".html\">" ++ t ++ "</a>"))
      ++ "</div>"

/-- One article entry of the index page. -/
def indexItem (p : Page) : String :=
  "    <article class=\"post\">\n      <h2><a href=\"/" ++ p.urlPath ++ "\">"
    ++ p.title ++ "</a></h2>\n      <div class=\"meta\">" ++ p.date ++ "  "
    ++ tagsHtmlOf p ++ "</div>\n    </article>"

/-- Everything of the index document before the timestamp. -/
def indexPre (pages : List Page) : String :=
  "<!DOCTYPE html>\n<html lang=\"ja\">\n<head>\n  <meta charset=\"UTF-8\">\n"
  ++ "  <title>compare-aything.com – 比較記事の一覧</title>\n"
  ++ "  <meta name=\"viewport\" content=\"width=device-width, initial-scale=1\">\n"
  ++ "  <meta name=\"description\" content=\"あらゆる商品・サービス・投資対象を比較するプログラマティックSEOサイト。最新記事一覧。\">\n"
  ++ "  <style>\n    body \x7b\n      font-family: system-ui, -apple-system, BlinkMacSystemFont, \"Segoe UI\", sans-serif;\n      max-width: 880px;\n      margin: 2rem auto;\n      padding: 0 1rem;\n      line-height: 1.6;\n    \x7d\n"
  ++ "    h1 \x7b\n      font-size: 1.8rem;\n      margin-bottom: 1.5rem;\n    \x7d\n"
  ++ "    .post \x7b\n      margin-bottom: 1.2rem;\n      padding-bottom: 0.8rem;\n      border-bottom: 1px solid #eee;\n    \x7d\n"
  ++ "    .post h2 \x7b\n      font-size: 1.15rem;\n      margin: 0 0 0.2rem 0;\n    \x7d\n"
  ++ "    .post a \x7b\n      text-decoration: none;\n    \x7d\n"
  ++ "    .post a:hover \x7b\n      text-decoration: underline;\n    \x7d\n"
  ++ "    .meta \x7b\n      font-size: 0.85rem;\n      color: #666;\n    \x7d\n"
  ++ "    .tags a \x7b\n      font-size: 0.8rem;\n      margin-right: 0.3rem;\n    \x7d\n"
  ++ "    footer \x7b\n      margin-top: 2rem;\n      font-size: 0.8rem;\n      color: #888;\n    \x7d\n  </style>\n</head>\n<body>\n  <h1>比較記事 一覧</h1>\n"
  ++ joinSep "\n" (pages.map indexItem)
  ++ "\n  <footer>最終更新: "

/-- Everything of the index document after the timestamp. -/
def indexPost : String := "</footer>\n</body>\n</html>\n"

/-- generate_index_html: the full document, with the utcnow timestamp
(formatted "%Y-%m-%d %H:%M UTC") passed in as updatedAt. -/
def renderIndexHtml (pages : List Page) (updatedAt : String) : String :=
  indexPre pages ++ updatedAt ++ indexPost

/-! ### Tag Renderer: generate_tag_pages (src/update_site.py lines 159-196) -/

/-- defaultdict(list): append p to the list stored under t, creating the
key at the end on first sight (Python dicts preserve insertion order). -/
def addTag (m : List (String × List Page)) (t : String) (p : Page) :
    List (String × List Page) :=
  match m with
  | [] => [(t, [p])]
  | (k, l) :: r => if k = t then (k, l ++ [p]) :: r else (k, l) :: addTag r t p

/-- Register all tags of one page. -/
def stepPage (m : List (String × List Page)) (p : Page) : List (String × List Page) :=
  p.tags.foldl (fun m t => addTag m t p) m

/-- The tags_map built by the first loop of generate_tag_pages. -/
def buildTagsMap (pages : List Page) : List (String × List Page) :=
  pages.foldl stepPage []

/-- Association-list lookup (access to one key of tags_map). -/
def listLookup {α : Type} : List (String × α) → String → Option α
  | [], _ => none
  | (k, v) :: r, t => if k = t then some v else listLookup r t

/-- The distinct tags observed across all pages, in first-appearance
order: the keys of tags_map. -/
def distinctTags (pages : List Page) : List String :=
  (buildTagsMap pages).map Prod.fst

/-- One list item of a tag page. -/
def tagItem (p : Page) : String :=
  "    <li><a href=\"/" ++ p.urlPath ++ "\">" ++ p.title
    ++ "</a> <span class=\"date\">" ++ p.date ++ "</span></li>"

/-- The document of one tag page, given its (already sorted) pages. -/
def renderTagHtml (tag : String) (tagPages : List Page) : String :=
  "<!DOCTYPE html>\n<html lang=\"ja\">\n<head>\n  <meta charset=\"UTF-8\">\n  <title>タグ: "
  ++ tag ++ " – compare-aything.com</title>\n  <meta name=\"viewport\" content=\"width=device-width, initial-scale=1\">\n</head>\n<body>\n  <h1>タグ: "
  ++ tag ++ "</h1>\n  <ul>\n"
  ++ joinSep "\n" (tagPages.map tagItem)
  ++ "\n  </ul>\n  <p><a href=\"/\">← 一覧に戻る</a></p>\n</body>\n</html>\n"

/-- generate_tag_pages: for each tags_map entry, re-sort its pages by date
descending (stable) and render one file named tag + ".html". -/
def generateTagPages (pages : List Page) : List (String × String) :=
  (buildTagsMap pages).map (fun e => (e.1 ++ ".html", renderTagHtml e.1 (sortPages e.2)))

/-- Writing a batch of files into a directory: an existing name is
overwritten in place, a new name appends in write order. -/
def writeNames (dir : List String) (names : List String) : List String :=
  names.foldl (fun d n => if d.contains n then d else d ++ [n]) dir

/-! ### Sitemap Renderer: generate_sitemap_xml (src/update_site.py lines 199-219) -/

/-- Path.glob("*.html"): names ending in ".html", excluding dotfiles. -/
def globHtml (n : String) : Bool :=
  (".html".data).isSuffixOf n.data && !(n.data.take 1 = ['.'])

/-- The glob result over the tag directory, in enumeration order. -/
def globHtmlList (dir : List String) : List String := dir.filter globHtml

/-- The loc values of the sitemap: the site root, one per page in page
order, one per globbed tag file. -/
def sitemapLocs (pages : List Page) (tagFiles : List String) : List String :=
  (BASE_URL ++ "/") :: (pages.map Page.url ++
    tagFiles.map (fun n => BASE_URL ++ "/" ++ TAGS_DIR ++ "/" ++ n))

/-- One url element of the sitemap. -/
def sitemapEntry (loc : String) : String :=
  "  <url>\n    <loc>" ++ loc ++ "</loc>\n  </url>"

/-- generate_sitemap_xml: the full sitemap document. -/
def renderSitemapXml (locs : List String) : String :=
  "<?xml version=\"1.0\" encoding=\"UTF-8\"?>\n<urlset xmlns=\"http://www.sitemaps.org/schemas/sitemap/0.9\">\n"
  ++ joinSep "\n" (locs.map sitemapEntry)
  ++ "\n</urlset>\n"

/-! ### main (src/update_site.py lines 222-230) -/

/-- The filesystem state main runs against: whether the content root is an
existing directory, the content files under it in os.walk order, and the
names already present in the tag output directory. -/
structure Fs where
  pagesDirOk : Bool
  files : List ContentFile
  tagsDir : List String
deriving DecidableEq, Repr

/-- Everything one successful run writes, plus the resulting tag-directory
listing. -/
structure Outputs where
  indexHtml : String
  tagFiles : List (String × String)
  sitemapXml : String
  tagsDirAfter : List String
deriving DecidableEq, Repr

/-- The generation pass of main after the content-root check: collect,
render index, render tag pages (creating/overwriting files under tags/),
then render the sitemap from a fresh glob of the tag directory. -/
def runPipeline (fs : Fs) (updatedAt : String) : Outputs :=
  let pages := collectPages fs.files
  let tagFiles := generateTagPages pages
  let tagsDirAfter := writeNames fs.tagsDir (tagFiles.map Prod.fst)
  { indexHtml := renderIndexHtml pages updatedAt
    tagFiles := tagFiles
    sitemapXml := renderSitemapXml (sitemapLocs pages (globHtmlList tagsDirAfter))
    tagsDirAfter := tagsDirAfter }

/-- Result of main: either the error report with nothing written, or the
outputs together with the console summary line. -/
inductive MainResult where
  | failure (message : String)
  | success (out : Outputs) (summary : String)
deriving DecidableEq, Repr

/-- Decimal rendering of a Nat, for the summary line. -/
def natToStr (n : Nat) : String := ⟨Nat.toDigits 10 n⟩

/-- main: fail fast when the content root is not a directory, else run the
whole generation pass and report the page count. -/
def mainRun (fs : Fs) (updatedAt : String) : MainResult :=
  if fs.pagesDirOk then
    MainResult.success (runPipeline fs updatedAt)
      ("Found " ++ natToStr (collectPages fs.files).length ++ " pages.")
  else
    MainResult.failure ("ERROR: " ++ PAGES_DIR ++ " ディレクトリがありません。")

/-! ### Specification-side helper notions used by the theorems -/

/-- Value of the last entry carrying the given key, scanning a list of
key-value pairs; none when no entry has the key.  This is the reference
notion the overwrite semantics of the metadata dict is compared with. -/
def lastVal : List (String × String) → String → Option String
  | [], _ => none
  | e :: r, k =>
    match lastVal r k with
    | some v => some v
    | none => if e.1 = k then some e.2 else none

/-- The key-value contributions of a metadata block, line by line, in line
order (lines that strip to empty or hold no colon contribute nothing). -/
def blockEntries (b : List Char) : List (String × String) :=
  (splitLinesPy b).filterMap lineEntry

/-- A document that consists of exactly one metadata block whose captured
content is b. -/
def synthDoc (b : List Char) : String :=
  ⟨'<' :: '!' :: '-' :: '-' :: 'M' :: 'E' :: 'T' :: 'A' :: (b ++ ['-', '-', '>'])⟩

/-- replaceFuel at its canonical fuel, the text length: this is what
pyReplace runs. -/
def replaceL (pat rep t : List Char) : List Char :=
  replaceFuel pat rep t.length t

end PseoSite

namespace GenSite

/-! ### src/generate.py: tabular mode

A CSV row under csv.DictReader is an association list from the header
field names to Option String values (a column missing in a short row reads
as None).  The substitution loop replaces, for each column in header
order, every occurrence of "\x7b\x7b" + key + "\x7d\x7d" by the value, with
None coerced to the empty string by the value-or-empty expression. -/

/-- The placeholder of one column key. -/
def placeholder (key : String) : String := "\x7b\x7b" ++ key ++ "\x7d\x7d"

/-- The row substitution loop of src/generate.py lines 24-26. -/
def renderRow (template : String) (row : List (String × Option String)) : String :=
  row.foldl (fun html kv => PseoSite.pyReplace html (placeholder kv.1) (kv.2.getD "")) template

/-! Specification-side reading of the substitution rule.  A template is
well formed when it splits into literal pieces holding no brace character
and placeholders with brace-free keys (every template of the repository is
of this shape).  Against such a template the sequential replace loop acts
placeholder-wise, which the segment notions below express. -/

/-- Does the string avoid both brace characters? -/
def braceFree (s : String) : Bool :=
  !(s.data.contains '\x7b') && !(s.data.contains '\x7d')

/-- One piece of a parsed template: literal text or one placeholder. -/
inductive Seg where
  | lit (s : String)
  | hole (key : String)
deriving DecidableEq, Repr

/-- The text of one segment. -/
def segStr : Seg → String
  | .lit s => s
  | .hole k => placeholder k

/-- The character text of a segment list. -/
def flatData (segs : List Seg) : List Char :=
  segs.foldr (fun sg acc => (segStr sg).data ++ acc) []

/-- The template text of a segment list. -/
def flattenSegs (segs : List Seg) : String := ⟨flatData segs⟩

/-- Is every literal and every placeholder key of the template
brace-free? -/
def wellFormedB (segs : List Seg) : Bool :=
  segs.all (fun sg =>
    match sg with
    | .lit s => braceFree s
    | .hole k => braceFree k)

/-- Effect of one column's replace pass on a segment. -/
def replaceHole (k rep : String) : Seg → Seg
  | .lit s => .lit s
  | .hole h => if h = k then .lit rep else .hole h

/-- Effect of a whole row on a segment, as the amended claim words it: a
placeholder whose key is a column becomes that column's value with None
coerced to the empty string (the first entry wins; dict rows have unique
keys), and a placeholder whose key is not a column stays verbatim. -/
def substSeg (row : List (String × Option String)) : Seg → Seg
  | .lit s => .lit s
  | .hole h =>
    match PseoSite.listLookup row h with
    | some v => .lit (v.getD "")
    | none => .hole h

/-- The segments of the spec scenario template
"<h1>\x7b\x7btitle\x7d\x7d</h1><p>\x7b\x7bmissing\x7d\x7d</p>". -/
def demoSegs : List Seg :=
  [Seg.lit "<h1>", Seg.hole "title", Seg.lit "</h1><p>", Seg.hole "missing", Seg.lit "</p>"]

end GenSite

namespace PseoSite

/-! ### Order facts about the lexicographic comparison -/

/-- Comparison of a list with itself is never strict. -/
theorem listLt_irrefl : ∀ a : List Char, listLt a a = false := by
  intro a
  induction a with
  | nil => rfl
  | cons x as ih => simp [listLt, ih]

/-- A strict comparison one way rules out the other way. -/
theorem listLt_asymm : ∀ {a b : List Char}, listLt a b = true → listLt b a = false := by
  intro a
  induction a with
  | nil =>
    intro b h
    cases b with
    | nil => simp [listLt] at h
    | cons y bs => rfl
  | cons x as ih =>
    intro b h
    cases b with
    | nil => simp [listLt] at h
    | cons y bs =>
      simp only [listLt] at h ⊢
      rcases lt_trichotomy x y with hxy | hxy | hxy
      · simp [hxy, not_lt.mpr (le_of_lt hxy)]
      · subst hxy
        simp [lt_irrefl] at h ⊢
        exact ih h
      · simp [hxy, not_lt.mpr (le_of_lt hxy)] at h

/-- Being not-below is transitive: the at-least order of the sort key. -/
theorem listLt_false_trans :
    ∀ {a b c : List Char}, listLt a b = false → listLt b c = false → listLt a c = false := by
  intro a
  induction a with
  | nil =>
    intro b c h1 h2
    cases b with
    | nil => exact h2
    | cons y bs => simp [listLt] at h1
  | cons x as ih =>
    intro b c h1 h2
    cases c with
    | nil => rfl
    | cons z cs =>
      cases b with
      | nil => simp [listLt] at h2
      | cons y bs =>
        simp only [listLt] at h1 h2 ⊢
        have hyx : ¬ x < y := by
          intro hlt
          simp [hlt] at h1
        have hzy : ¬ y < z := by
          intro hlt
          simp [hlt] at h2
        have hzx : ¬ x < z := fun hlt =>
          absurd (lt_of_lt_of_le (lt_of_lt_of_le hlt (not_lt.mp hzy)) (not_lt.mp hyx))
            (lt_irrefl x)
        rcases lt_trichotomy z x with hlt | heq | hgt
        · simp [hzx, hlt]
        · have hle1 : y ≤ x := not_lt.mp hyx
          have hle2 : z ≤ y := not_lt.mp hzy
          have hxy : x = y := le_antisymm (heq ▸ hle2) hle1
          subst heq
          subst hxy
          simp [lt_irrefl] at h1 h2 ⊢
          exact ih h1 h2
        · exact absurd hgt hzx

/-! ### The stable descending sort: facts about insertDesc and sortPages -/

/-- Membership is preserved by the insertion step. -/
theorem mem_insertDesc {p q : Page} : ∀ {l : List Page}, q ∈ insertDesc p l ↔ q = p ∨ q ∈ l := by
  intro l
  induction l with
  | nil => simp [insertDesc]
  | cons y r ih =>
    simp only [insertDesc]
    split
    · rw [List.mem_cons, ih, List.mem_cons]
      tauto
    · exact List.mem_cons

/-- The insertion step keeps the list descending by date. -/
theorem pairwise_insertDesc {p : Page} :
    ∀ {l : List Page}, l.Pairwise (fun a b => listLt a.date.data b.date.data = false) →
      (insertDesc p l).Pairwise (fun a b => listLt a.date.data b.date.data = false) := by
  intro l
  induction l with
  | nil =>
    intro _
    simp [insertDesc]
  | cons y r ih =>
    intro h
    rw [List.pairwise_cons] at h
    simp only [insertDesc]
    split
    · rw [List.pairwise_cons]
      refine ⟨?_, ih h.2⟩
      intro q hq
      rcases mem_insertDesc.mp hq with hq | hq
      · subst hq
        exact listLt_asymm (by assumption)
      · exact h.1 q hq
    · rw [List.pairwise_cons]
      refine ⟨?_, List.pairwise_cons.mpr h⟩
      intro q hq
      have hpy : listLt p.date.data y.date.data = false := by
        rename_i hcond
        simpa using hcond
      rcases List.mem_cons.mp hq with hq | hq
      · exact hq ▸ hpy
      · exact listLt_false_trans hpy (h.1 q hq)

/-- sortPages returns a descending list. -/
theorem sortPages_pairwise (l : List Page) :
    (sortPages l).Pairwise (fun a b => listLt a.date.data b.date.data = false) := by
  induction l with
  | nil => simp [sortPages]
  | cons p r ih => exact pairwise_insertDesc ih

/-- Filtering by one date value commutes with the insertion step: the
element goes to the front of its own date class. -/
theorem filter_insertDesc (d : String) (p : Page) :
    ∀ l : List Page, (insertDesc p l).filter (fun q => q.date == d)
      = if p.date == d then p :: l.filter (fun q => q.date == d)
        else l.filter (fun q => q.date == d) := by
  intro l
  induction l with
  | nil =>
    by_cases hpd : (p.date == d) = true
    · simp [insertDesc, List.filter_cons, hpd]
    · simp [insertDesc, List.filter_cons, hpd]
  | cons y r ih =>
    simp only [insertDesc]
    split
    · rename_i hlt
      by_cases hyd : (y.date == d) = true
      · have hpd : (p.date == d) = false := by
          by_contra hc
          simp only [Bool.not_eq_false, beq_iff_eq] at hc
          rw [beq_iff_eq] at hyd
          have hdd : y.date = p.date := by rw [hyd, hc]
          rw [hdd, listLt_irrefl] at hlt
          exact absurd hlt (by decide)
        simp [List.filter_cons, hyd, ih, hpd]
      · simp [List.filter_cons, hyd, ih]
    · by_cases hpd : (p.date == d) = true
      · simp [List.filter_cons, hpd]
      · simp [List.filter_cons, hpd]

/-- Stability: sorting does not reorder pages sharing one date value. -/
theorem sortPages_filter (d : String) :
    ∀ l : List Page, (sortPages l).filter (fun q => q.date == d)
      = l.filter (fun q => q.date == d) := by
  intro l
  induction l with
  | nil => rfl
  | cons p r ih =>
    simp only [sortPages, filter_insertDesc, ih]
    by_cases hpd : (p.date == d) = true
    · simp [List.filter, hpd]
    · simp only [Bool.not_eq_true] at hpd
      simp [List.filter, hpd]

/-- Membership is preserved by sorting. -/
theorem mem_sortPages {q : Page} : ∀ {l : List Page}, q ∈ sortPages l ↔ q ∈ l := by
  intro l
  induction l with
  | nil => simp [sortPages]
  | cons p r ih =>
    simp [sortPages, mem_insertDesc, ih]

/-- Inserting below everything is a cons. -/
theorem insertDesc_eq_cons {p : Page} {l : List Page}
    (h : ∀ q ∈ l, listLt p.date.data q.date.data = false) : insertDesc p l = p :: l := by
  cases l with
  | nil => rfl
  | cons y r =>
    have hy := h y (by simp)
    simp [insertDesc, hy]

/-- Sorting an already descending list changes nothing. -/
theorem sortPages_eq_self {l : List Page}
    (h : l.Pairwise (fun a b => listLt a.date.data b.date.data = false)) :
    sortPages l = l := by
  induction l with
  | nil => rfl
  | cons p r ih =>
    rw [List.pairwise_cons] at h
    simp only [sortPages]
    rw [ih h.2]
    exact insertDesc_eq_cons h.1

/-! ### Python dict semantics: assignment overwrites, last write wins -/

/-- Lookup after one dict assignment. -/
theorem dictGet_dictInsert (m : List (String × String)) (k v u : String) :
    dictGet (dictInsert m k v) u = if k = u then some v else dictGet m u := by
  induction m with
  | nil => simp [dictInsert, dictGet]
  | cons e r ih =>
    by_cases hk : e.1 = k
    · simp only [dictInsert, hk, if_pos rfl]
      by_cases hu : k = u
      · simp [dictGet, hu]
      · simp [dictGet, hu, hk]
    · simp only [dictInsert, if_neg hk]
      by_cases hu : e.1 = u
      · have hku : ¬ k = u := fun h => hk (h ▸ hu)
        simp [dictGet, hu, hku]
      · simp [dictGet, hu, ih]

/-- Lookup after folding a batch of assignments: the last write wins, and
the initial dict only answers for keys the batch never wrote. -/
theorem dictGet_foldl (entries : List (String × String)) :
    ∀ (m : List (String × String)) (k : String),
      dictGet (entries.foldl (fun m e => dictInsert m e.1 e.2) m) k =
        match lastVal entries k with
        | some v => some v
        | none => dictGet m k := by
  induction entries with
  | nil => intro m k; rfl
  | cons e r ih =>
    intro m k
    rw [List.foldl_cons, ih]
    cases hlv : lastVal r k with
    | some v => simp [lastVal, hlv]
    | none =>
      simp only [lastVal, hlv, dictGet_dictInsert]
      by_cases hk : e.1 = k
      · simp [hk]
      · simp [hk]

/-- The per-line loop of parse_meta_from_html is the assignment fold over
the contributing lines. -/
theorem foldl_lines_eq (lines : List (List Char)) :
    ∀ m, lines.foldl
        (fun m l =>
          match lineEntry l with
          | none => m
          | some (k, v) => dictInsert m k v) m
      = (lines.filterMap lineEntry).foldl (fun m e => dictInsert m e.1 e.2) m := by
  induction lines with
  | nil => intro m; rfl
  | cons l r ih =>
    intro m
    cases hle : lineEntry l with
    | none => simp [List.filterMap_cons, hle, ih]
    | some e =>
      cases e with
      | mk k v => simp [List.filterMap_cons, hle, ih]

/-- When a block is found, parseMeta answers by the last contributing line
for each key. -/
theorem dictGet_parseMeta (text : String) (b : List Char)
    (h : findMetaBlock text.data = some b) (k : String) :
    dictGet (parseMeta text) k = lastVal (blockEntries b) k := by
  have hpm : parseMeta text
      = (splitLinesPy b).foldl
          (fun m l =>
            match lineEntry l with
            | none => m
            | some (k, v) => dictInsert m k v) [] := by
    unfold parseMeta
    rw [h]
  rw [hpm, foldl_lines_eq]
  rw [dictGet_foldl]
  cases hlv : lastVal (blockEntries b) k with
  | some v => simp [blockEntries] at hlv ⊢; rw [hlv]
  | none => simp [blockEntries] at hlv ⊢; rw [hlv]; rfl

/-- A last-written value is the value of an actual entry. -/
theorem lastVal_mem {entries : List (String × String)} {k v : String}
    (h : lastVal entries k = some v) : (k, v) ∈ entries := by
  induction entries with
  | nil => simp [lastVal] at h
  | cons e r ih =>
    cases e with
    | mk e1 e2 =>
      simp only [lastVal] at h
      cases hlv : lastVal r k with
      | some w =>
        rw [hlv] at h
        cases h
        exact List.mem_cons_of_mem _ (ih hlv)
      | none =>
        rw [hlv] at h
        by_cases hk : e1 = k
        · subst hk
          rw [if_pos rfl] at h
          cases h
          exact List.mem_cons_self _ _
        · rw [if_neg hk] at h
          cases h

/-- A key that some entry carries has a last-written value. -/
theorem lastVal_isSome_of_mem {entries : List (String × String)} {k v : String}
    (h : (k, v) ∈ entries) : ∃ w, lastVal entries k = some w := by
  induction entries with
  | nil => simp at h
  | cons e r ih =>
    simp only [lastVal]
    cases hlv : lastVal r k with
    | some w => exact ⟨w, rfl⟩
    | none =>
      rcases List.mem_cons.mp h with he | hr
      · subst he
        simp
      · rcases ih hr with ⟨w, hw⟩
        rw [hw] at hlv
        cases hlv

/-! ### Structure of the first metadata block -/

/-- A successful lazy capture holds no closer and is followed by one. -/
theorem takeUntilClose_some :
    ∀ {l b : List Char}, takeUntilClose l = some b →
      hasClose b = false ∧ ∃ r, l = b ++ ['-', '-', '>'] ++ r := by
  intro l
  induction l with
  | nil => intro b h; cases h
  | cons c r ih =>
    intro b h
    simp only [takeUntilClose] at h
    by_cases hc : startsWithClose (c :: r) = true
    · rw [if_pos hc] at h
      cases h
      refine ⟨rfl, ?_⟩
      simp only [startsWithClose, List.take, decide_eq_true_eq] at hc
      cases r with
      | nil => simp [List.take] at hc
      | cons c2 r2 =>
        cases r2 with
        | nil => simp [List.take] at hc
        | cons c3 r3 =>
          simp only [List.take, List.cons.injEq] at hc
          obtain ⟨h1, h2, h3, -⟩ := hc
          subst h1; subst h2; subst h3
          exact ⟨r3, rfl⟩
    · rw [if_neg hc] at h
      cases hb : takeUntilClose r with
      | none => rw [hb] at h; cases h
      | some b' =>
        rw [hb] at h
        cases h
        obtain ⟨hnc, r2, hr⟩ := ih hb
        refine ⟨?_, r2, by rw [hr]; rfl⟩
        simp only [hasClose, hnc, Bool.or_false]
        simp only [Bool.not_eq_true] at hc
        cases b' with
        | nil => simp [startsWithClose, List.take]
        | cons d b2 =>
          cases b2 with
          | nil =>
            simp [startsWithClose, List.take]
          | cons e b3 =>
            have : startsWithClose (c :: d :: e :: (b3 ++ ['-', '-', '>'] ++ r2))
                = startsWithClose (c :: d :: e :: b3) := by
              simp [startsWithClose, List.take]
            rw [hr] at hc
            simpa [this] using hc

/-- The lazy capture of a closer-free block followed by a closer is the
block itself. -/
theorem takeUntilClose_append :
    ∀ {b : List Char}, hasClose b = false →
      ∀ r, takeUntilClose (b ++ ['-', '-', '>'] ++ r) = some b := by
  intro b
  induction b with
  | nil =>
    intro _ r
    simp [takeUntilClose, startsWithClose, List.take]
  | cons c b' ih =>
    intro h r
    simp only [hasClose, Bool.or_eq_false_iff] at h
    have hsc : startsWithClose (c :: (b' ++ ['-', '-', '>'] ++ r)) = false := by
      cases b' with
      | nil => simp [startsWithClose, List.take]
      | cons d b2 =>
        cases b2 with
        | nil =>
          simp [startsWithClose, List.take]
        | cons e b3 =>
          have heq : startsWithClose (c :: d :: e :: (b3 ++ ['-', '-', '>'] ++ r))
              = startsWithClose (c :: d :: e :: b3) := by
            simp [startsWithClose, List.take]
          simpa [heq] using h.1
    simp only [List.append_assoc, List.cons_append, takeUntilClose]
    rw [if_neg (by simpa [List.append_assoc] using hsc)]
    have ih2 := ih h.2 r
    simp only [List.append_assoc, List.cons_append, List.singleton_append,
      List.nil_append] at ih2 ⊢
    simp [ih2]

/-- The captured block of any successful search holds no closer. -/
theorem findMetaBlock_hasClose :
    ∀ {l b : List Char}, findMetaBlock l = some b → hasClose b = false := by
  intro l
  induction l with
  | nil => intro b h; cases h
  | cons c r ih =>
    intro b h
    simp only [findMetaBlock] at h
    cases hm : matchOpen (c :: r) with
    | some rest =>
      rw [hm] at h
      exact (takeUntilClose_some h).1
    | none =>
      rw [hm] at h
      exact ih h

/-- Searching the one-block document recovers exactly the block. -/
theorem findMetaBlock_synthDoc {b : List Char} (h : hasClose b = false) :
    findMetaBlock (synthDoc b).data = some b := by
  have hopen : matchOpen ('<' :: '!' :: '-' :: '-' :: 'M' :: 'E' :: 'T' :: 'A'
      :: (b ++ ['-', '-', '>'])) = some (b ++ ['-', '-', '>']) := by
    simp [matchOpen, List.dropWhile, pyIsSpace]
  show findMetaBlock ('<' :: '!' :: '-' :: '-' :: 'M' :: 'E' :: 'T' :: 'A'
      :: (b ++ ['-', '-', '>'])) = some b
  simp only [findMetaBlock, hopen]
  have := takeUntilClose_append h []
  simpa using this

/-- parseMeta of any document equals parseMeta of the one-block document
made of its first block: everything outside the first block is ignored. -/
theorem parseMeta_eq_synthDoc {text : String} {b : List Char}
    (h : findMetaBlock text.data = some b) :
    parseMeta text = parseMeta (synthDoc b) := by
  have h2 : findMetaBlock (synthDoc b).data = some b :=
    findMetaBlock_synthDoc (findMetaBlock_hasClose h)
  unfold parseMeta
  rw [h, h2]

/-! ### The tags_map of generate_tag_pages -/

/-- Boolean containment agrees with membership for string lists. -/
theorem contains_iff_mem {l : List String} {a : String} : l.contains a = true ↔ a ∈ l := by
  simp [List.contains]

/-- Lookup after appending one page under one tag. -/
theorem listLookup_addTag (m : List (String × List Page)) (t : String) (p : Page) (u : String) :
    listLookup (addTag m t p) u
      = if u = t then some (((listLookup m t).getD []) ++ [p]) else listLookup m u := by
  induction m with
  | nil =>
    by_cases hu : u = t
    · subst hu
      simp [addTag, listLookup]
    · have hu2 : ¬ t = u := fun h => hu (Eq.symm h)
      simp [addTag, listLookup, hu, hu2]
  | cons e r ih =>
    cases e with
    | mk k l =>
      by_cases hk : k = t
      · subst hk
        by_cases hu : u = k
        · subst hu
          simp [addTag, listLookup]
        · have hu2 : ¬ k = u := fun h => hu (Eq.symm h)
          simp [addTag, listLookup, hu, hu2]
      · by_cases hu : k = u
        · subst hu
          simp [addTag, listLookup, hk]
        · simp [addTag, listLookup, hk, hu, ih]

/-- Keys after appending one page under one tag. -/
theorem mem_keys_addTag {m : List (String × List Page)} {t : String} {p : Page} {u : String} :
    u ∈ (addTag m t p).map Prod.fst ↔ u ∈ m.map Prod.fst ∨ u = t := by
  induction m with
  | nil => simp [addTag]
  | cons e r ih =>
    cases e with
    | mk k l =>
      by_cases hk : k = t
      · subst hk
        simp [addTag]
        tauto
      · simp only [addTag, if_neg hk, List.map_cons, List.mem_cons, ih]
        tauto

/-- The addTag step never duplicates keys. -/
theorem nodup_keys_addTag {m : List (String × List Page)} {t : String} {p : Page}
    (h : (m.map Prod.fst).Nodup) : ((addTag m t p).map Prod.fst).Nodup := by
  induction m with
  | nil => simp [addTag]
  | cons e r ih =>
    cases e with
    | mk k l =>
      simp only [List.map_cons, List.nodup_cons] at h
      by_cases hk : k = t
      · subst hk
        have heq : addTag ((k, l) :: r) k p = (k, l ++ [p]) :: r := by simp [addTag]
        rw [heq]
        simpa using h
      · simp only [addTag, if_neg hk, List.map_cons, List.nodup_cons]
        refine ⟨?_, ih h.2⟩
        intro hc
        rcases mem_keys_addTag.mp hc with hc | hc
        · exact h.1 hc
        · exact hk hc

/-- Lookup after registering all tags of one page (duplicate-free tag
list): the page is appended once under each of its tags. -/
theorem listLookup_foldl_tags (p : Page) :
    ∀ (ts : List String) (m : List (String × List Page)) (u : String), ts.Nodup →
      listLookup (ts.foldl (fun m t => addTag m t p) m) u
        = if u ∈ ts then some (((listLookup m u).getD []) ++ [p]) else listLookup m u := by
  intro ts
  induction ts with
  | nil => intro m u _; simp
  | cons t ts' ih =>
    intro m u hnd
    rw [List.nodup_cons] at hnd
    rw [List.foldl_cons, ih _ _ hnd.2]
    by_cases hu : u ∈ ts'
    · have hut : ¬ u = t := fun h => hnd.1 (h ▸ hu)
      rw [if_pos hu, if_pos (List.mem_cons.mpr (Or.inr hu))]
      rw [listLookup_addTag, if_neg hut]
    · rw [if_neg hu]
      rw [listLookup_addTag]
      by_cases hut : u = t
      · subst hut
        rw [if_pos rfl, if_pos (List.mem_cons_self _ _)]
      · rw [if_neg hut, if_neg (fun hc => by
          rcases List.mem_cons.mp hc with hc | hc
          · exact hut hc
          · exact hu hc)]

/-- Keys after registering all tags of one page. -/
theorem mem_keys_foldl_tags (p : Page) :
    ∀ (ts : List String) (m : List (String × List Page)) (u : String),
      u ∈ ((ts.foldl (fun m t => addTag m t p) m).map Prod.fst)
        ↔ u ∈ m.map Prod.fst ∨ u ∈ ts := by
  intro ts
  induction ts with
  | nil => intro m u; simp
  | cons t ts' ih =>
    intro m u
    rw [List.foldl_cons, ih, mem_keys_addTag]
    simp only [List.mem_cons]
    tauto

/-- Registering a page keeps the keys duplicate-free. -/
theorem nodup_keys_foldl_tags (p : Page) :
    ∀ (ts : List String) (m : List (String × List Page)),
      (m.map Prod.fst).Nodup → ((ts.foldl (fun m t => addTag m t p) m).map Prod.fst).Nodup := by
  intro ts
  induction ts with
  | nil => intro m h; exact h
  | cons t ts' ih =>
    intro m h
    rw [List.foldl_cons]
    exact ih _ (nodup_keys_addTag h)

/-- tags_map never has two entries for one tag. -/
theorem buildTagsMap_keys_nodup (pages : List Page) :
    ((buildTagsMap pages).map Prod.fst).Nodup := by
  have main : ∀ (ps : List Page) (m : List (String × List Page)),
      (m.map Prod.fst).Nodup → ((ps.foldl stepPage m).map Prod.fst).Nodup := by
    intro ps
    induction ps with
    | nil => intro m h; exact h
    | cons p ps' ih =>
      intro m h
      rw [List.foldl_cons]
      exact ih _ (nodup_keys_foldl_tags p p.tags m h)
  exact main pages [] (by simp)

/-- tags_map has an entry exactly for the tags observed on some page. -/
theorem mem_keys_buildTagsMap (pages : List Page) (u : String) :
    u ∈ (buildTagsMap pages).map Prod.fst ↔ ∃ p ∈ pages, u ∈ p.tags := by
  have main : ∀ (ps : List Page) (m : List (String × List Page)),
      u ∈ ((ps.foldl stepPage m).map Prod.fst)
        ↔ u ∈ m.map Prod.fst ∨ ∃ p ∈ ps, u ∈ p.tags := by
    intro ps
    induction ps with
    | nil => intro m; simp
    | cons p ps' ih =>
      intro m
      rw [List.foldl_cons, ih]
      simp only [stepPage]
      rw [mem_keys_foldl_tags]
      simp only [List.mem_cons]
      constructor
      · rintro (⟨h | h⟩ | ⟨q, hq, hu⟩)
        · exact Or.inl h
        · exact Or.inr ⟨p, Or.inl rfl, h⟩
        · exact Or.inr ⟨q, Or.inr hq, hu⟩
      · rintro (h | ⟨q, hq | hq, hu⟩)
        · exact Or.inl (Or.inl h)
        · exact Or.inl (Or.inr (hq ▸ hu))
        · exact Or.inr ⟨q, hq, hu⟩
  rw [buildTagsMap, main pages []]
  simp

/-- The group stored under each tag, when no page lists one tag twice: the
pages carrying the tag, in page order. -/
theorem listLookup_buildTagsMap (pages : List Page)
    (h : ∀ p ∈ pages, p.tags.Nodup) (t : String) :
    listLookup (buildTagsMap pages) t
      = if pages.filter (fun p => p.tags.contains t) = [] then none
        else some (pages.filter (fun p => p.tags.contains t)) := by
  have main : ∀ (ps : List Page) (m : List (String × List Page)),
      (∀ p ∈ ps, p.tags.Nodup) →
      listLookup (ps.foldl stepPage m) t
        = match listLookup m t with
          | some l0 => some (l0 ++ ps.filter (fun p => p.tags.contains t))
          | none =>
            if ps.filter (fun p => p.tags.contains t) = [] then none
            else some (ps.filter (fun p => p.tags.contains t)) := by
    intro ps
    induction ps with
    | nil =>
      intro m _
      cases hm : listLookup m t <;> simp [hm]
    | cons p ps' ih =>
      intro m hnd
      rw [List.foldl_cons, ih _ (fun q hq => hnd q (List.mem_cons_of_mem _ hq))]
      have hstep : listLookup (stepPage m p) t
          = if t ∈ p.tags then some (((listLookup m t).getD []) ++ [p]) else listLookup m t :=
        listLookup_foldl_tags p p.tags m t (hnd p (List.mem_cons_self _ _))
      by_cases hmem : t ∈ p.tags
      · have hcont : p.tags.contains t = true := contains_iff_mem.mpr hmem
        have hfc : List.filter (fun q => q.tags.contains t) (p :: ps')
            = p :: List.filter (fun q => q.tags.contains t) ps' := by
          simp [List.filter_cons, hcont, hmem]
        rw [hfc]
        cases hm : listLookup m t with
        | some l0 =>
          rw [hstep, if_pos hmem, hm]
          simp
        | none =>
          rw [hstep, if_pos hmem, hm]
          simp
      · have hcont : p.tags.contains t = false :=
          Bool.eq_false_iff.mpr (fun hc => hmem (contains_iff_mem.mp hc))
        have hfc : List.filter (fun q => q.tags.contains t) (p :: ps')
            = List.filter (fun q => q.tags.contains t) ps' := by
          simp [List.filter_cons, hcont, hmem]
        rw [hfc]
        rw [hstep, if_neg hmem]
  rw [buildTagsMap, main pages [] h]
  rfl

/-- A lookup hit names an actual entry of the association list. -/
theorem mem_of_listLookup {α : Type} :
    ∀ {m : List (String × α)} {t : String} {l : α}, listLookup m t = some l → (t, l) ∈ m := by
  intro m
  induction m with
  | nil => intro t l h; cases h
  | cons e r ih =>
    intro t l h
    cases e with
    | mk k v =>
      simp only [listLookup] at h
      by_cases hk : k = t
      · subst hk
        rw [if_pos rfl] at h
        cases h
        exact List.mem_cons_self _ _
      · rw [if_neg hk] at h
        exact List.mem_cons_of_mem _ (ih h)

/-- With no tags anywhere, tags_map is empty and no tag page is made. -/
theorem buildTagsMap_eq_nil (pages : List Page) (h : ∀ p ∈ pages, p.tags = []) :
    buildTagsMap pages = [] := by
  have main : ∀ (ps : List Page) (m : List (String × List Page)),
      (∀ p ∈ ps, p.tags = []) → ps.foldl stepPage m = m := by
    intro ps
    induction ps with
    | nil => intro m _; rfl
    | cons p ps' ih =>
      intro m hz
      rw [List.foldl_cons]
      have hp : p.tags = [] := hz p (List.mem_cons_self _ _)
      rw [stepPage, hp]
      exact ih m (fun q hq => hz q (List.mem_cons_of_mem _ hq))
  exact main pages [] h

/-! ### The tag directory across writes and the glob -/

/-- Writing adds exactly the written names to the directory. -/
theorem mem_writeNames :
    ∀ (names d : List String) (n : String), n ∈ writeNames d names ↔ n ∈ d ∨ n ∈ names := by
  intro names
  induction names with
  | nil => intro d n; simp [writeNames]
  | cons m names' ih =>
    intro d n
    rw [writeNames, List.foldl_cons]
    by_cases hm : d.contains m = true
    · rw [if_pos hm]
      rw [show List.foldl _ d names' = writeNames d names' from rfl, ih]
      have : m ∈ d := contains_iff_mem.mp hm
      simp only [List.mem_cons]
      constructor
      · rintro (h | h)
        · exact Or.inl h
        · exact Or.inr (Or.inr h)
      · rintro (h | h | h)
        · exact Or.inl h
        · exact Or.inl (h ▸ this)
        · exact Or.inr h
    · rw [if_neg hm]
      rw [show List.foldl _ (d ++ [m]) names' = writeNames (d ++ [m]) names' from rfl, ih]
      simp only [List.mem_append, List.mem_singleton, List.mem_cons]
      tauto

/-- Writing names already present changes nothing. -/
theorem writeNames_eq_self :
    ∀ {names d : List String}, (∀ n ∈ names, n ∈ d) → writeNames d names = d := by
  intro names
  induction names with
  | nil => intro d _; rfl
  | cons m names' ih =>
    intro d h
    rw [writeNames, List.foldl_cons]
    rw [if_pos (contains_iff_mem.mpr (h m (List.mem_cons_self _ _)))]
    exact ih (fun n hn => h n (List.mem_cons_of_mem _ hn))

/-- Rewriting the same batch is idempotent on the directory. -/
theorem writeNames_idem (d names : List String) :
    writeNames (writeNames d names) names = writeNames d names :=
  writeNames_eq_self (fun n hn => (mem_writeNames names d n).mpr (Or.inr hn))

/-- Writing all-new duplicate-free names appends them in order. -/
theorem writeNames_append :
    ∀ {names d : List String}, names.Nodup → (∀ n ∈ names, n ∉ d) →
      writeNames d names = d ++ names := by
  intro names
  induction names with
  | nil => intro d _ _; simp [writeNames]
  | cons m names' ih =>
    intro d hnd hnew
    rw [List.nodup_cons] at hnd
    rw [writeNames, List.foldl_cons]
    rw [if_neg (fun hc => hnew m (List.mem_cons_self _ _) (contains_iff_mem.mp hc))]
    rw [show List.foldl _ (d ++ [m]) names' = writeNames (d ++ [m]) names' from rfl]
    rw [ih hnd.2 (fun n hn hc => by
      rcases List.mem_append.mp hc with hc | hc
      · exact hnew n (List.mem_cons_of_mem _ hn) hc
      · rw [List.mem_singleton] at hc
        exact hnd.1 (hc ▸ hn))]
    simp

/-! ### Field-level readings of getPageInfo and parseMeta -/

/-- With no block found, the mapping is empty. -/
theorem parseMeta_of_none {text : String} (h : findMetaBlock text.data = none) :
    parseMeta text = [] := by
  unfold parseMeta
  rw [h]

/-- The tags field of a page, read off the metadata dict. -/
theorem getPageInfo_tags (f : ContentFile) :
    (getPageInfo f).tags
      = match dictGet (parseMeta f.content) "tags" with
        | some v => (splitComma v).filterMap
            (fun t => if pyStrip t = "" then none else some (pyStrip t))
        | none => [] := rfl

/-- The title field of a page, read off the metadata dict. -/
theorem getPageInfo_title (f : ContentFile) :
    (getPageInfo f).title
      = match dictGet (parseMeta f.content) "title" with
        | some t => if t = "" then stemOf f.path else t
        | none => stemOf f.path := rfl

/-- The date field of a page, read off the metadata dict. -/
theorem getPageInfo_date (f : ContentFile) :
    (getPageInfo f).date
      = match dictGet (parseMeta f.content) "date" with
        | some d => pyStrip d
        | none => f.mtimeDate := rfl

/-- The relative url path of a page. -/
theorem getPageInfo_urlPath (f : ContentFile) :
    (getPageInfo f).urlPath = PAGES_DIR ++ "/" ++ f.path := rfl

/-- The absolute url of a page. -/
theorem getPageInfo_url (f : ContentFile) :
    (getPageInfo f).url = BASE_URL ++ "/" ++ (getPageInfo f).urlPath := rfl

/-- Keep the stripped nonempty pieces: the comprehension of the source
equals trimming every piece and then dropping the empty ones. -/
theorem filterMap_strip_eq (l : List String) :
    l.filterMap (fun t => if pyStrip t = "" then none else some (pyStrip t))
      = (l.map pyStrip).filter (fun s => s ≠ "") := by
  induction l with
  | nil => rfl
  | cons t r ih =>
    by_cases h : pyStrip t = ""
    · simp [List.filterMap_cons, List.filter_cons, h, ih]
    · simp [List.filterMap_cons, List.filter_cons, h, ih]

/-- Every tag of a built page is a stripped, nonempty string. -/
theorem tags_ne_empty {f : ContentFile} {t : String}
    (h : t ∈ (getPageInfo f).tags) : t ≠ "" := by
  rw [getPageInfo_tags] at h
  cases hd : dictGet (parseMeta f.content) "tags" with
  | none => rw [hd] at h; cases h
  | some v =>
    rw [hd] at h
    rcases List.mem_filterMap.mp h with ⟨x, -, hx⟩
    by_cases hs : pyStrip x = ""
    · rw [if_pos hs] at hx; cases hx
    · rw [if_neg hs] at hx
      cases hx
      exact hs

/-- Membership in the collected pages names a discovered content file. -/
theorem mem_collectPages {files : List ContentFile} {p : Page}
    (h : p ∈ collectPages files) : ∃ f ∈ files, isHtmlName f.path = true ∧ p = getPageInfo f := by
  rw [collectPages] at h
  have h2 := mem_sortPages.mp h
  rw [discoverPages] at h2
  rcases List.mem_map.mp h2 with ⟨f, hf, rfl⟩
  rcases List.mem_filter.mp hf with ⟨hmem, hhtml⟩
  exact ⟨f, hmem, hhtml, rfl⟩

/-! ### Glob and file names of the generated tag pages -/

/-- A generated tag file name passes the glob when the tag is nonempty and
does not start with a dot. -/
theorem globHtml_generated {t : String} (h1 : t ≠ "") (h2 : t.data.take 1 ≠ ['.']) :
    globHtml (t ++ ".html") = true := by
  have hdata : (t ++ ".html").data = t.data ++ ".html".data := String.data_append t ".html"
  have hne : t.data ≠ [] := fun hc => h1 (String.ext hc)
  rw [globHtml, hdata]
  have hsuf : (".html".data).isSuffixOf (t.data ++ ".html".data) = true := by
    rw [List.isSuffixOf_iff_suffix]
    exact List.suffix_append _ _
  rw [hsuf]
  cases hd : t.data with
  | nil => exact absurd hd hne
  | cons c cs =>
    rw [hd] at h2
    have hcdot : ¬ c = '.' := fun hc => h2 (by rw [hc]; rfl)
    simp [List.take, hcdot]

/-- Distinct tags yield distinct tag file names. -/
theorem nodup_tagFileNames {keys : List String} (h : keys.Nodup) :
    (keys.map (fun t => t ++ ".html")).Nodup := by
  refine h.map ?_
  intro a b hab
  have := congrArg String.data hab
  rw [String.data_append, String.data_append] at this
  exact String.ext (List.append_cancel_right this)

/-- The names written by generate_tag_pages are the distinct tags with the
html suffix. -/
theorem generateTagPages_names (pages : List Page) :
    (generateTagPages pages).map Prod.fst = (distinctTags pages).map (fun t => t ++ ".html") := by
  rw [generateTagPages, distinctTags, List.map_map, List.map_map]
  rfl

/-- The sitemap has one loc for the root, one per page, one per globbed
tag file. -/
theorem sitemapLocs_length (pages : List Page) (tagFiles : List String) :
    (sitemapLocs pages tagFiles).length = 1 + pages.length + tagFiles.length := by
  simp [sitemapLocs]
  omega

/-! ### Claim theorems -/

/-- Claim C1: for every corpus, collect_pages returns the discovered pages
sorted by the date string in descending code-point order (listLt a b =
false says the date of a is not below the date of b), and within each date
class the order is exactly the discovery order (the sort is stable). -/
theorem claim_C1_collect_pages_sorted_stable (files : List ContentFile) :
    (collectPages files).Pairwise (fun a b => listLt a.date.data b.date.data = false)
    ∧ ∀ d : String, (collectPages files).filter (fun p => p.date == d)
        = (discoverPages files).filter (fun p => p.date == d) :=
  ⟨sortPages_pairwise _, fun d => sortPages_filter d _⟩

/-- Claim C4: main fails fast with the error report (and no outputs) when
the content root is not a directory, and otherwise succeeds with the
outputs of the generation pass and the page-count summary. -/
theorem claim_C4_main_error_handling (fs : Fs) (updatedAt : String) :
    (fs.pagesDirOk = false →
      mainRun fs updatedAt
        = MainResult.failure ("ERROR: " ++ PAGES_DIR ++ " ディレクトリがありません。"))
    ∧ (fs.pagesDirOk = true →
      mainRun fs updatedAt
        = MainResult.success (runPipeline fs updatedAt)
            ("Found " ++ natToStr (collectPages fs.files).length ++ " pages.")) := by
  constructor
  · intro h
    simp [mainRun, h]
  · intro h
    simp [mainRun, h]

/-- Witness for claim C4 at concrete filesystem states. -/
theorem claim_C4_witness :
    mainRun ⟨false, [], []⟩ "T"
      = MainResult.failure ("ERROR: " ++ PAGES_DIR ++ " ディレクトリがありません。")
    ∧ mainRun ⟨true, [], []⟩ "T"
      = MainResult.success (runPipeline ⟨true, [], []⟩ "T")
          ("Found " ++ natToStr (collectPages ([] : List ContentFile)).length ++ " pages.") :=
  ⟨(claim_C4_main_error_handling ⟨false, [], []⟩ "T").1 rfl,
   (claim_C4_main_error_handling ⟨true, [], []⟩ "T").2 rfl⟩

/-- Claim C6: parse_meta_from_html returns the empty mapping when no
metadata block exists; otherwise only the first block matters (the result
equals parsing a document holding just that block), every mapping entry
comes from a non-empty colon-holding line of the block via lineEntry
(lowered trimmed key, trimmed value), and every such line puts its key
into the mapping. -/
theorem claim_C6_parse_meta_spec (text : String) :
    (findMetaBlock text.data = none → parseMeta text = [])
    ∧ (∀ b, findMetaBlock text.data = some b →
        parseMeta text = parseMeta (synthDoc b)
        ∧ (∀ k v, dictGet (parseMeta text) k = some v →
            ∃ l ∈ splitLinesPy b, lineEntry l = some (k, v))
        ∧ (∀ l ∈ splitLinesPy b, ∀ k v, lineEntry l = some (k, v) →
            ∃ w, dictGet (parseMeta text) k = some w)) := by
  refine ⟨fun h => parseMeta_of_none h, fun b hb => ⟨parseMeta_eq_synthDoc hb, ?_, ?_⟩⟩
  · intro k v hkv
    rw [dictGet_parseMeta text b hb] at hkv
    have hmem := lastVal_mem hkv
    rw [blockEntries] at hmem
    exact List.mem_filterMap.mp hmem
  · intro l hl k v hkv
    have hmem : (k, v) ∈ blockEntries b := by
      rw [blockEntries]
      exact List.mem_filterMap.mpr ⟨l, hl, hkv⟩
    rcases lastVal_isSome_of_mem hmem with ⟨w, hw⟩
    exact ⟨w, by rw [dictGet_parseMeta text b hb]; exact hw⟩

/-- Witness for claim C6: a blockless document maps to the empty dict, and
a two-block document is read exactly like its first block alone. -/
theorem claim_C6_witness :
    parseMeta "no metadata anywhere" = []
    ∧ parseMeta "pre<!-- Meta\nTitle : Hi\nskip me\n-->mid<!--META title: 2-->"
        = parseMeta (synthDoc ("\nTitle : Hi\nskip me\n".data))
    ∧ ∃ l ∈ splitLinesPy ("\nTitle : Hi\nskip me\n".data),
        lineEntry l = some ("title", "Hi") := by
  have h1 := (claim_C6_parse_meta_spec "no metadata anywhere").1 (by decide)
  have h2 := (claim_C6_parse_meta_spec
      "pre<!-- Meta\nTitle : Hi\nskip me\n-->mid<!--META title: 2-->").2
      ("\nTitle : Hi\nskip me\n".data) (by decide)
  exact ⟨h1, h2.1, h2.2.1 "title" "Hi" (by decide)⟩

/-- Claim C10: for each key, the mapping holds the value of the last
contributing line of the block (later duplicates overwrite earlier ones);
lastVal scans the line contributions and keeps the last hit. -/
theorem claim_C10_last_duplicate_wins (text : String) (b : List Char)
    (h : findMetaBlock text.data = some b) (k : String) :
    dictGet (parseMeta text) k = lastVal (blockEntries b) k :=
  dictGet_parseMeta text b h k

/-- Witness for claim C10: two lines for key a (the second spelled with an
uppercase A); the mapping holds the second value. -/
theorem claim_C10_witness :
    dictGet (parseMeta "<!--META\na: 1\nb: 9\nA : 2\n-->") "a"
      = lastVal (blockEntries ("\na: 1\nb: 9\nA : 2\n".data)) "a"
    ∧ dictGet (parseMeta "<!--META\na: 1\nb: 9\nA : 2\n-->") "a" = some "2" :=
  ⟨claim_C10_last_duplicate_wins _ _ (by decide) "a", by decide⟩

/-- Claim C7: the tag sequence comes from splitting the tags value at
commas, trimming each piece, dropping empty pieces, keeping order; a file
without a tags entry has no tags. -/
theorem claim_C7_tags_parsing (f : ContentFile) :
    (dictGet (parseMeta f.content) "tags" = none → (getPageInfo f).tags = [])
    ∧ (∀ v, dictGet (parseMeta f.content) "tags" = some v →
        (getPageInfo f).tags = ((splitComma v).map pyStrip).filter (fun s => s ≠ "")) := by
  constructor
  · intro h
    rw [getPageInfo_tags, h]
  · intro v h
    rw [getPageInfo_tags, h]
    exact filterMap_strip_eq (splitComma v)

/-- Witness for claim C7 on the spec scenario value "a, b , ,c" and on a
file without metadata. -/
theorem claim_C7_witness :
    dictGet (parseMeta "<!--META\ntags: a, b , ,c\n-->") "tags" = some "a, b , ,c"
    ∧ (getPageInfo ⟨"x.html", "<!--META\ntags: a, b , ,c\n-->", "2024-01-01"⟩).tags
        = ["a", "b", "c"]
    ∧ (getPageInfo ⟨"y.html", "no meta", "2024-01-01"⟩).tags = [] := by
  refine ⟨by decide, ?_, ?_⟩
  · have h := (claim_C7_tags_parsing
        ⟨"x.html", "<!--META\ntags: a, b , ,c\n-->", "2024-01-01"⟩).2 "a, b , ,c" (by decide)
    rw [h]
    decide
  · exact (claim_C7_tags_parsing ⟨"y.html", "no meta", "2024-01-01"⟩).1 (by decide)

/-- Claim C8: when the title entry is absent or empty the title is the
file name stem, and when the date entry is absent the date is the
formatted modification time. -/
theorem claim_C8_title_date_defaults (f : ContentFile) :
    ((dictGet (parseMeta f.content) "title" = none
        ∨ dictGet (parseMeta f.content) "title" = some "") →
      (getPageInfo f).title = stemOf f.path)
    ∧ (dictGet (parseMeta f.content) "date" = none →
      (getPageInfo f).date = f.mtimeDate) := by
  constructor
  · intro h
    rcases h with h | h
    · rw [getPageInfo_title, h]
    · rw [getPageInfo_title, h]
      simp
  · intro h
    rw [getPageInfo_date, h]

/-- Witness for claim C8: a metadata-free file falls back to stem and
modification date. -/
theorem claim_C8_witness :
    (getPageInfo ⟨"docs/my-page.html", "<p>hello</p>", "2023-12-31"⟩).title = "my-page"
    ∧ (getPageInfo ⟨"docs/my-page.html", "<p>hello</p>", "2023-12-31"⟩).date = "2023-12-31" := by
  have h := claim_C8_title_date_defaults ⟨"docs/my-page.html", "<p>hello</p>", "2023-12-31"⟩
  refine ⟨?_, h.2 (by decide)⟩
  have ht := h.1 (Or.inl (by decide))
  rw [ht]
  decide

/-- Claim C9: rerunning the pipeline on unchanged content files (the tag
directory now holding the first run's files) reproduces the tag pages, the
sitemap and the tag directory byte for byte, and the index differs only in
the embedded timestamp field. -/
theorem claim_C9_idempotent (fs : Fs) (t1 t2 : String) :
    (runPipeline { fs with tagsDir := (runPipeline fs t1).tagsDirAfter } t2).tagFiles
        = (runPipeline fs t1).tagFiles
    ∧ (runPipeline { fs with tagsDir := (runPipeline fs t1).tagsDirAfter } t2).sitemapXml
        = (runPipeline fs t1).sitemapXml
    ∧ (runPipeline { fs with tagsDir := (runPipeline fs t1).tagsDirAfter } t2).tagsDirAfter
        = (runPipeline fs t1).tagsDirAfter
    ∧ ∃ pre post : String,
        (runPipeline fs t1).indexHtml = pre ++ t1 ++ post
        ∧ (runPipeline { fs with tagsDir := (runPipeline fs t1).tagsDirAfter } t2).indexHtml
            = pre ++ t2 ++ post := by
  have hdir : (runPipeline { fs with tagsDir := (runPipeline fs t1).tagsDirAfter } t2).tagsDirAfter
      = (runPipeline fs t1).tagsDirAfter :=
    writeNames_idem fs.tagsDir ((generateTagPages (collectPages fs.files)).map Prod.fst)
  refine ⟨rfl, ?_, hdir, indexPre (collectPages fs.files), indexPost, rfl, rfl⟩
  exact congrArg
    (fun d => renderSitemapXml (sitemapLocs (collectPages fs.files) (globHtmlList d))) hdir

/-- Appending the html suffix to distinct stems keeps them distinct. -/
theorem appendHtml_inj : Function.Injective (fun t : String => t ++ ".html") := by
  intro a b hab
  have h2 := congrArg String.data hab
  rw [String.data_append, String.data_append] at h2
  exact String.ext (List.append_cancel_right h2)

/-- Claim C2 counterexample: with a leftover html file in the tag
directory and an empty corpus, the sitemap holds 2 loc entries while
1 + number of pages + number of distinct tags is 1: the glob over the tag
directory also picks up files the run did not generate. -/
theorem claim_C2_counterexample :
    countSubList ("<loc>".data)
        (((runPipeline ⟨true, [], ["stale.html"]⟩ "TS").sitemapXml).data) = 2
    ∧ 1 + (collectPages ([] : List ContentFile)).length
        + (distinctTags (collectPages ([] : List ContentFile))).length = 1
    ∧ countSubList ("<loc>".data)
        (((runPipeline ⟨true, [], ["stale.html"]⟩ "TS").sitemapXml).data)
      ≠ 1 + (collectPages ([] : List ContentFile)).length
          + (distinctTags (collectPages ([] : List ContentFile))).length := by
  refine ⟨by decide, by decide, by decide⟩

/-- Claim C2 as amended: the sitemap locs are one for the root, one per
page, one per globbed tag-directory file; when the tag directory starts
empty and all tags are usable file stems (no leading dot, no slash) the
glob returns exactly the generated files, so the count is
1 + pages + distinct tags.  Every page loc is the base url joined with the
page's relative path and every tag loc is the base url joined with the tag
directory and file name. -/
theorem claim_C2_sitemap_amended (fs : Fs) (updatedAt : String)
    (h0 : fs.tagsDir = [])
    (hs : ∀ p ∈ collectPages fs.files, ∀ t ∈ p.tags,
        t.data.take 1 ≠ ['.'] ∧ ¬ '/' ∈ t.data) :
    (runPipeline fs updatedAt).sitemapXml
      = renderSitemapXml (sitemapLocs (collectPages fs.files)
          (globHtmlList ((runPipeline fs updatedAt).tagsDirAfter)))
    ∧ (sitemapLocs (collectPages fs.files)
        (globHtmlList ((runPipeline fs updatedAt).tagsDirAfter))).length
      = 1 + (collectPages fs.files).length + (distinctTags (collectPages fs.files)).length
    ∧ (∀ loc ∈ sitemapLocs (collectPages fs.files)
          (globHtmlList ((runPipeline fs updatedAt).tagsDirAfter)),
        loc = BASE_URL ++ "/"
        ∨ (∃ p ∈ collectPages fs.files, loc = BASE_URL ++ "/" ++ p.urlPath)
        ∨ (∃ n ∈ globHtmlList ((runPipeline fs updatedAt).tagsDirAfter),
            loc = BASE_URL ++ "/" ++ TAGS_DIR ++ "/" ++ n)) := by
  have hnames : (generateTagPages (collectPages fs.files)).map Prod.fst
      = (distinctTags (collectPages fs.files)).map (fun t => t ++ ".html") :=
    generateTagPages_names (collectPages fs.files)
  have hnodup : ((generateTagPages (collectPages fs.files)).map Prod.fst).Nodup := by
    rw [hnames]
    exact nodup_tagFileNames (buildTagsMap_keys_nodup (collectPages fs.files))
  have hdir : (runPipeline fs updatedAt).tagsDirAfter
      = (generateTagPages (collectPages fs.files)).map Prod.fst := by
    show writeNames fs.tagsDir ((generateTagPages (collectPages fs.files)).map Prod.fst) = _
    rw [h0, writeNames_append hnodup (fun n _ hc => (List.not_mem_nil n) hc)]
    rfl
  have hglobbed : ∀ n ∈ (generateTagPages (collectPages fs.files)).map Prod.fst,
      globHtml n = true := by
    intro n hn
    rw [hnames] at hn
    rcases List.mem_map.mp hn with ⟨t, ht, rfl⟩
    rcases (mem_keys_buildTagsMap (collectPages fs.files) t).mp ht with ⟨p, hp, htag⟩
    rcases mem_collectPages hp with ⟨f, -, -, rfl⟩
    exact globHtml_generated (tags_ne_empty htag) ((hs _ hp t htag).1)
  have hglob : globHtmlList ((runPipeline fs updatedAt).tagsDirAfter)
      = (generateTagPages (collectPages fs.files)).map Prod.fst := by
    rw [hdir, globHtmlList, List.filter_eq_self.mpr hglobbed]
  refine ⟨rfl, ?_, ?_⟩
  · rw [sitemapLocs_length, hglob, hnames, List.length_map]
  · intro loc hloc
    rw [sitemapLocs] at hloc
    rcases List.mem_cons.mp hloc with h | h
    · exact Or.inl h
    · rcases List.mem_append.mp h with h | h
      · rcases List.mem_map.mp h with ⟨p, hp, rfl⟩
        refine Or.inr (Or.inl ⟨p, hp, ?_⟩)
        rcases mem_collectPages hp with ⟨f, -, -, rfl⟩
        exact getPageInfo_url f
      · rcases List.mem_map.mp h with ⟨n, hn, rfl⟩
        exact Or.inr (Or.inr ⟨n, hn, rfl⟩)

/-- Witness for the amended claim C2: one page with tags x and y, clean
tag directory: 1 + 1 + 2 loc entries. -/
theorem claim_C2_witness :
    (sitemapLocs
        (collectPages [⟨"a.html", "<!--META\ntags: x,y\ndate: 2024-01-01\n-->", "d"⟩])
        (globHtmlList ((runPipeline
            ⟨true, [⟨"a.html", "<!--META\ntags: x,y\ndate: 2024-01-01\n-->", "d"⟩], []⟩
            "T").tagsDirAfter))).length
      = 1 + 1 + 2 := by
  have h := (claim_C2_sitemap_amended
      ⟨true, [⟨"a.html", "<!--META\ntags: x,y\ndate: 2024-01-01\n-->", "d"⟩], []⟩
      "T" rfl (by decide)).2.1
  rw [h]
  decide

/-- Claim C5 counterexample: a page listing tag a twice is listed twice in
the tag document for a, so the rendered listing is not the filtered page
sequence. -/
theorem claim_C5_counterexample :
    (listLookup (buildTagsMap (collectPages
          [⟨"p.html", "<!--META\ntags: a,a\n-->", "2024-01-01"⟩])) "a").map sortPages
      ≠ some (sortPages ((collectPages
          [⟨"p.html", "<!--META\ntags: a,a\n-->", "2024-01-01"⟩]).filter
            (fun p => p.tags.contains "a"))) := by
  decide

/-- Claim C5 as amended: one tag document per distinct observed tag (file
names are distinct, and a document exists exactly for the observed tags);
each page appears in a tag group once per occurrence of the tag in its tag
list, so when no page lists a tag twice the rendered listing is exactly
the pages carrying the tag in date-descending stable order; no tags means
no tag documents. -/
theorem claim_C5_tag_pages_amended (files : List ContentFile)
    (h : ∀ p ∈ collectPages files, p.tags.Nodup) :
    ((generateTagPages (collectPages files)).map Prod.fst).Nodup
    ∧ (∀ t, (∃ p ∈ collectPages files, t ∈ p.tags) ↔
        (t ++ ".html") ∈ (generateTagPages (collectPages files)).map Prod.fst)
    ∧ (∀ t l, listLookup (buildTagsMap (collectPages files)) t = some l →
        (t ++ ".html", renderTagHtml t (sortPages l)) ∈ generateTagPages (collectPages files)
        ∧ sortPages l = (collectPages files).filter (fun p => p.tags.contains t)
        ∧ (sortPages l).Pairwise (fun a b => listLt a.date.data b.date.data = false))
    ∧ ((∀ p ∈ collectPages files, p.tags = []) →
        generateTagPages (collectPages files) = []) := by
  refine ⟨?_, ?_, ?_, ?_⟩
  · rw [generateTagPages_names]
    exact nodup_tagFileNames (buildTagsMap_keys_nodup (collectPages files))
  · intro t
    rw [← mem_keys_buildTagsMap, generateTagPages_names]
    constructor
    · intro ht
      exact List.mem_map_of_mem _ ht
    · intro ht
      rcases List.mem_map.mp ht with ⟨u, hu, huv⟩
      have := appendHtml_inj huv
      exact this ▸ hu
  · intro t l hlook
    have hfil := listLookup_buildTagsMap (collectPages files) h t
    rw [hlook] at hfil
    have hl : l = (collectPages files).filter (fun p => p.tags.contains t) := by
      by_cases hz : (collectPages files).filter (fun p => p.tags.contains t) = []
      · rw [if_pos hz] at hfil
        cases hfil
      · rw [if_neg hz] at hfil
        cases hfil
        rfl
    have hsortedfil : ((collectPages files).filter
        (fun p => p.tags.contains t)).Pairwise
          (fun a b => listLt a.date.data b.date.data = false) :=
      List.Pairwise.filter _ (sortPages_pairwise (discoverPages files))
    have hsl : sortPages l = (collectPages files).filter (fun p => p.tags.contains t) := by
      rw [hl]
      exact sortPages_eq_self hsortedfil
    refine ⟨?_, hsl, by rw [hsl]; exact hsortedfil⟩
    have hmem := mem_of_listLookup hlook
    exact List.mem_map_of_mem (fun e => (e.1 ++ ".html", renderTagHtml e.1 (sortPages e.2))) hmem
  · intro hz
    rw [generateTagPages, buildTagsMap_eq_nil _ hz]
    rfl

/-- Witness for the amended claim C5: two pages tagged x on different
dates; exactly one document named x.html exists. -/
theorem claim_C5_witness :
    ((generateTagPages (collectPages
        [⟨"a.html", "<!--META\ntags: x\ndate: 2024-01-02\n-->", "d"⟩,
         ⟨"b.html", "<!--META\ntags: x\ndate: 2024-03-04\n-->", "d"⟩])).map Prod.fst).Nodup
    ∧ ("x" ++ ".html") ∈ (generateTagPages (collectPages
        [⟨"a.html", "<!--META\ntags: x\ndate: 2024-01-02\n-->", "d"⟩,
         ⟨"b.html", "<!--META\ntags: x\ndate: 2024-03-04\n-->", "d"⟩])).map Prod.fst := by
  have h := claim_C5_tag_pages_amended
      [⟨"a.html", "<!--META\ntags: x\ndate: 2024-01-02\n-->", "d"⟩,
       ⟨"b.html", "<!--META\ntags: x\ndate: 2024-03-04\n-->", "d"⟩] (by decide)
  exact ⟨h.1, (h.2.1 "x").mp (by decide)⟩

end PseoSite

namespace GenSite

open PseoSite

/-! ### Facts about the sequential replace loop over well-formed templates -/

/-- Replace never does anything to the empty text. -/
theorem replaceFuel_nil (pat rep : List Char) : ∀ fuel, replaceFuel pat rep fuel [] = [] := by
  intro fuel
  cases fuel <;> rfl

/-- For a non-empty pattern, any sufficient fuel computes the same
replacement: each step consumes at least one character. -/
theorem replaceFuel_fuel_eq (pat rep : List Char) (hpat : pat ≠ []) :
    ∀ (n m : Nat) (t : List Char), t.length ≤ n → t.length ≤ m →
      replaceFuel pat rep n t = replaceFuel pat rep m t := by
  intro n
  induction n with
  | zero =>
    intro m t ht _
    have htn : t = [] := List.eq_nil_of_length_eq_zero (Nat.le_zero.mp ht)
    subst htn
    rw [replaceFuel_nil, replaceFuel_nil]
  | succ n ih =>
    intro m t ht hm
    cases t with
    | nil => rw [replaceFuel_nil, replaceFuel_nil]
    | cons c r =>
      cases m with
      | zero => simp at hm
      | succ m' =>
        have hpl : 1 ≤ pat.length := by
          cases pat with
          | nil => exact absurd rfl hpat
          | cons p pr => simp
        simp only [replaceFuel]
        by_cases hp : pat.isPrefixOf (c :: r) = true
        · rw [if_pos hp, if_pos hp]
          congr 1
          apply ih
          · rw [List.length_drop]
            simp only [List.length_cons] at ht ⊢
            omega
          · rw [List.length_drop]
            simp only [List.length_cons] at hm ⊢
            omega
        · rw [if_neg hp, if_neg hp]
          congr 1
          apply ih
          · simp only [List.length_cons] at ht
            omega
          · simp only [List.length_cons] at hm
            omega

/-- One scan step with no match at the head. -/
theorem replaceL_cons_neg {pat rep : List Char} {c : Char} {r : List Char}
    (h : pat.isPrefixOf (c :: r) = false) :
    replaceL pat rep (c :: r) = c :: replaceL pat rep r := by
  have hstep : replaceL pat rep (c :: r)
      = if pat.isPrefixOf (c :: r) = true
        then rep ++ replaceFuel pat rep r.length ((c :: r).drop pat.length)
        else c :: replaceFuel pat rep r.length r := rfl
  rw [hstep, if_neg (by simp [h])]
  rfl

/-- One scan step with a match at the head. -/
theorem replaceL_cons_pos {pat rep : List Char} {c : Char} {r : List Char}
    (hpat : pat ≠ []) (h : pat.isPrefixOf (c :: r) = true) :
    replaceL pat rep (c :: r) = rep ++ replaceL pat rep ((c :: r).drop pat.length) := by
  have hstep : replaceL pat rep (c :: r)
      = if pat.isPrefixOf (c :: r) = true
        then rep ++ replaceFuel pat rep r.length ((c :: r).drop pat.length)
        else c :: replaceFuel pat rep r.length r := rfl
  rw [hstep, if_pos h]
  congr 1
  apply replaceFuel_fuel_eq pat rep hpat
  · rw [List.length_drop]
    have hpl : 1 ≤ pat.length := by
      cases pat with
      | nil => exact absurd rfl hpat
      | cons p pr => simp
    simp only [List.length_cons]
    omega
  · exact Nat.le_refl _

/-- Every list is a Boolean prefix of itself followed by anything. -/
theorem isPrefixOf_self_append : ∀ (l r : List Char), l.isPrefixOf (l ++ r) = true := by
  intro l r
  induction l with
  | nil => simp
  | cons a l' ih => simp [List.isPrefixOf_cons₂, ih]

/-- The scan passes over text holding no opening brace. -/
theorem replaceL_pass (pt rep : List Char) :
    ∀ (l rest : List Char), (∀ c ∈ l, ¬ c = '\x7b') →
      replaceL ('\x7b' :: pt) rep (l ++ rest) = l ++ replaceL ('\x7b' :: pt) rep rest := by
  intro l
  induction l with
  | nil => intro rest _; rfl
  | cons c l' ih =>
    intro rest h
    have hc : ¬ c = '\x7b' := h c (List.mem_cons_self _ _)
    have hbeq : ('\x7b' == c) = false := beq_eq_false_iff_ne.mpr (fun he => hc he.symm)
    have hpre : ('\x7b' :: pt).isPrefixOf (c :: (l' ++ rest)) = false := by
      simp [List.isPrefixOf_cons₂, hbeq]
    rw [List.cons_append, replaceL_cons_neg hpre,
      ih rest (fun d hd => h d (List.mem_cons_of_mem _ hd))]
    rfl

/-- The scan replaces a pattern standing at the head. -/
theorem replaceL_head_match (pat rep : List Char) (hpat : pat ≠ []) (rest : List Char) :
    replaceL pat rep (pat ++ rest) = rep ++ replaceL pat rep rest := by
  cases pat with
  | nil => exact absurd rfl hpat
  | cons p pr =>
    rw [List.cons_append,
      replaceL_cons_pos (by simp)
        (by rw [← List.cons_append]; exact isPrefixOf_self_append _ _)]
    congr 1
    rw [← List.cons_append, List.drop_left]

/-- Two distinct brace-free keys give placeholder bodies neither of which
is a prefix of the other followed by its closers. -/
theorem not_prefix_of_ne :
    ∀ (km hm rest : List Char), '\x7b' ∉ km → '\x7d' ∉ km → '\x7b' ∉ hm → '\x7d' ∉ hm →
      km ≠ hm →
      (km ++ ['\x7d', '\x7d']).isPrefixOf (hm ++ '\x7d' :: '\x7d' :: rest) = false := by
  intro km
  induction km with
  | nil =>
    intro hm rest _ _ _ hmd hne
    cases hm with
    | nil => exact absurd rfl hne
    | cons b hm' =>
      have hb : ('\x7d' == b) = false :=
        beq_eq_false_iff_ne.mpr (fun he => hmd (he ▸ List.mem_cons_self b hm'))
      simp [List.cons_append, List.isPrefixOf_cons₂, hb]
  | cons a km' ih =>
    intro hm rest hkb hkd hmb hmd hne
    cases hm with
    | nil =>
      have ha : (a == '\x7d') = false :=
        beq_eq_false_iff_ne.mpr (fun he => hkd (he ▸ List.mem_cons_self a km'))
      simp [List.cons_append, List.isPrefixOf_cons₂, ha]
    | cons b hm' =>
      by_cases hab : a = b
      · subst hab
        have hne' : km' ≠ hm' := fun he => hne (by rw [he])
        have hrec := ih hm' rest (fun hc => hkb (List.mem_cons_of_mem _ hc))
          (fun hc => hkd (List.mem_cons_of_mem _ hc))
          (fun hc => hmb (List.mem_cons_of_mem _ hc))
          (fun hc => hmd (List.mem_cons_of_mem _ hc)) hne'
        simp [List.cons_append, List.isPrefixOf_cons₂, hrec]
      · simp [List.cons_append, List.isPrefixOf_cons₂, beq_eq_false_iff_ne.mpr hab]

/-- Nothing opening with a brace is a prefix of brace-free text followed
by closers. -/
theorem not_prefix_after_open (l hm rest : List Char) (hmb : '\x7b' ∉ hm) :
    ('\x7b' :: l).isPrefixOf (hm ++ '\x7d' :: '\x7d' :: rest) = false := by
  cases hm with
  | nil =>
    have hb : ('\x7b' == '\x7d') = false := by decide
    simp [List.isPrefixOf_cons₂, hb]
  | cons b hm' =>
    have hb : ('\x7b' == b) = false :=
      beq_eq_false_iff_ne.mpr (fun he => hmb (he ▸ List.mem_cons_self b hm'))
    simp [List.cons_append, List.isPrefixOf_cons₂, hb]

/-- The characters of a placeholder. -/
theorem placeholder_data (k : String) :
    (placeholder k).data = '\x7b' :: '\x7b' :: (k.data ++ ['\x7d', '\x7d']) := by
  show (("\x7b\x7b" ++ k) ++ "\x7d\x7d").data = _
  rw [String.data_append, String.data_append]
  show (['\x7b', '\x7b'] ++ k.data) ++ ['\x7d', '\x7d'] = _
  simp

/-- Boolean containment agrees with membership for character lists. -/
theorem contains_char_iff {l : List Char} {a : Char} : l.contains a = true ↔ a ∈ l := by
  simp [List.contains]

/-- A brace-free string holds neither brace character. -/
theorem braceFree_not_mem {s : String} (h : braceFree s = true) :
    '\x7b' ∉ s.data ∧ '\x7d' ∉ s.data := by
  rw [braceFree, Bool.and_eq_true, Bool.not_eq_true', Bool.not_eq_true'] at h
  constructor
  · intro hc
    have h2 := contains_char_iff.mpr hc
    rw [h.1] at h2
    exact absurd h2 (by decide)
  · intro hc
    have h2 := contains_char_iff.mpr hc
    rw [h.2] at h2
    exact absurd h2 (by decide)

/-- The scan passes over a whole placeholder of a different brace-free
key. -/
theorem replaceL_hole_skip (k h : String) (rep : List Char) (hk : braceFree k = true)
    (hh : braceFree h = true) (hne : h ≠ k) (rest : List Char) :
    replaceL ((placeholder k).data) rep ((placeholder h).data ++ rest)
      = (placeholder h).data ++ replaceL ((placeholder k).data) rep rest := by
  obtain ⟨hkb, hkd⟩ := braceFree_not_mem hk
  obtain ⟨hhb, hhd⟩ := braceFree_not_mem hh
  have hned : k.data ≠ h.data := fun he => hne (String.ext he).symm
  rw [placeholder_data k, placeholder_data h]
  have htext : ('\x7b' :: '\x7b' :: (h.data ++ ['\x7d', '\x7d'])) ++ rest
      = '\x7b' :: '\x7b' :: (h.data ++ '\x7d' :: '\x7d' :: rest) := by simp
  rw [htext]
  have hinner := not_prefix_of_ne k.data h.data rest hkb hkd hhb hhd hned
  have hp0 : ('\x7b' :: '\x7b' :: (k.data ++ ['\x7d', '\x7d'])).isPrefixOf
      ('\x7b' :: '\x7b' :: (h.data ++ '\x7d' :: '\x7d' :: rest)) = false := by
    simp [List.isPrefixOf_cons₂, hinner]
  rw [replaceL_cons_neg hp0]
  have hopen := not_prefix_after_open (k.data ++ ['\x7d', '\x7d']) h.data rest hhb
  have hp1 : ('\x7b' :: '\x7b' :: (k.data ++ ['\x7d', '\x7d'])).isPrefixOf
      ('\x7b' :: (h.data ++ '\x7d' :: '\x7d' :: rest)) = false := by
    simp [List.isPrefixOf_cons₂, hopen]
  rw [replaceL_cons_neg hp1]
  have hsplit : h.data ++ '\x7d' :: '\x7d' :: rest = (h.data ++ ['\x7d', '\x7d']) ++ rest := by
    simp
  rw [hsplit,
    replaceL_pass ('\x7b' :: (k.data ++ ['\x7d', '\x7d'])) rep (h.data ++ ['\x7d', '\x7d']) rest
      (fun c hc he => by
        rcases List.mem_append.mp hc with hc | hc
        · exact hhb (he ▸ hc)
        · rcases List.mem_cons.mp hc with hc | hc
          · rw [he] at hc
            exact absurd hc (by decide)
          · rw [List.mem_singleton] at hc
            rw [he] at hc
            exact absurd hc (by decide))]
  simp

/-- Unfolds well-formedness over a cons. -/
theorem wellFormedB_cons {sg : Seg} {segs : List Seg} :
    wellFormedB (sg :: segs) = true ↔
      (match sg with | .lit s => braceFree s | .hole k => braceFree k) = true
        ∧ wellFormedB segs = true := by
  simp [wellFormedB, List.all_cons]

/-- One replace pass keeps the template well formed when the inserted
value is brace-free. -/
theorem wellFormedB_map_replaceHole {segs : List Seg} {k rep : String}
    (hw : wellFormedB segs = true) (hrep : braceFree rep = true) :
    wellFormedB (segs.map (replaceHole k rep)) = true := by
  induction segs with
  | nil => rfl
  | cons sg segs' ih =>
    rw [wellFormedB_cons] at hw
    rw [List.map_cons, wellFormedB_cons]
    refine ⟨?_, ih hw.2⟩
    cases sg with
    | lit s => exact hw.1
    | hole h =>
      by_cases hhk : h = k
      · simp [replaceHole, hhk, hrep]
      · simp only [replaceHole, if_neg hhk]
        exact hw.1

/-- One replace pass on the flattened well-formed template acts exactly
segment-wise: it turns every placeholder of the key into the value and
touches nothing else. -/
theorem replace_flatData (k rep : String) (hk : braceFree k = true) :
    ∀ segs : List Seg, wellFormedB segs = true →
      replaceL ((placeholder k).data) rep.data (flatData segs)
        = flatData (segs.map (replaceHole k rep)) := by
  intro segs
  induction segs with
  | nil => intro _; rfl
  | cons sg segs' ih =>
    intro hw
    rw [wellFormedB_cons] at hw
    have hflat : flatData (sg :: segs') = (segStr sg).data ++ flatData segs' := rfl
    rw [hflat]
    cases sg with
    | lit s =>
      have hs : braceFree s = true := hw.1
      rw [placeholder_data k,
        replaceL_pass ('\x7b' :: (k.data ++ ['\x7d', '\x7d'])) rep.data (segStr (Seg.lit s)).data
          (flatData segs')
          (fun c hc he => (braceFree_not_mem hs).1 (he ▸ hc)),
        ← placeholder_data k, ih hw.2]
      rfl
    | hole h =>
      have hh : braceFree h = true := hw.1
      by_cases hhk : h = k
      · subst hhk
        have hmatch : (segStr (Seg.hole h)).data ++ flatData segs'
            = (placeholder h).data ++ flatData segs' := rfl
        rw [hmatch,
          replaceL_head_match _ _ (by rw [placeholder_data]; simp) _, ih hw.2]
        have hrh : replaceHole h rep (Seg.hole h) = Seg.lit rep := by
          simp [replaceHole]
        rw [List.map_cons, hrh]
        rfl
      · have hmatch : (segStr (Seg.hole h)).data ++ flatData segs'
            = (placeholder h).data ++ flatData segs' := rfl
        rw [hmatch, replaceL_hole_skip k h rep.data hk hh hhk, ih hw.2]
        have hrh : replaceHole k rep (Seg.hole h) = Seg.hole h := by
          simp [replaceHole, hhk]
        rw [List.map_cons, hrh]
        rfl

/-- String-level reading of replace_flatData for one column. -/
theorem replace_flatten (k rep : String) (hk : braceFree k = true)
    (segs : List Seg) (hw : wellFormedB segs = true) :
    PseoSite.pyReplace (flattenSegs segs) (placeholder k) rep
      = flattenSegs (segs.map (replaceHole k rep)) := by
  show String.mk (replaceL ((placeholder k).data) rep.data (flatData segs)) = _
  rw [replace_flatData k rep hk segs hw]
  rfl

/-- The empty row substitutes nothing. -/
theorem substSeg_nil (sg : Seg) : substSeg [] sg = sg := by
  cases sg <;> rfl

/-- The empty row substitutes nothing, template-wide. -/
theorem map_substSeg_nil (segs : List Seg) : segs.map (substSeg []) = segs := by
  induction segs with
  | nil => rfl
  | cons sg segs' ih => rw [List.map_cons, substSeg_nil, ih]

/-- Applying one column then the rest of the row equals applying the
whole row, segment-wise. -/
theorem substSeg_replaceHole (kv : String × Option String)
    (row' : List (String × Option String)) :
    ∀ sg : Seg, substSeg row' (replaceHole kv.1 (kv.2.getD "") sg) = substSeg (kv :: row') sg := by
  intro sg
  cases sg with
  | lit s => rfl
  | hole h =>
    by_cases hhk : h = kv.1
    · subst hhk
      simp [replaceHole, substSeg, PseoSite.listLookup]
    · have hkh : ¬ kv.1 = h := fun he => hhk he.symm
      simp [replaceHole, substSeg, hhk, PseoSite.listLookup, hkh]

/-- Claim C3 counterexample: for the spec scenario (row slug=foo,
title=Foo, template with a missing placeholder) the output keeps the
placeholder of the key that is not a column verbatim, and does not contain
the claimed empty paragraph. -/
theorem claim_C3_counterexample :
    renderRow "<h1>\x7b\x7btitle\x7d\x7d</h1><p>\x7b\x7bmissing\x7d\x7d</p>"
        [("slug", some "foo"), ("title", some "Foo")]
      = "<h1>Foo</h1><p>\x7b\x7bmissing\x7d\x7d</p>"
    ∧ PseoSite.strContains
        (renderRow "<h1>\x7b\x7btitle\x7d\x7d</h1><p>\x7b\x7bmissing\x7d\x7d</p>"
          [("slug", some "foo"), ("title", some "Foo")])
        "<h1>Foo</h1><p></p>" = false := by
  refine ⟨by decide, by decide⟩

/-- Claim C3 as amended, for every template and every row: over a
template made of brace-free literal pieces and placeholders with
brace-free keys, and a row with brace-free keys and values, each
placeholder whose key is a column of the row is replaced by that column's
value with a missing (None) or empty value substituting the empty string,
and each placeholder whose key is not a column is left verbatim —
renderRow equals the segment-wise substitution substSeg. -/
theorem claim_C3_substitution_amended :
    ∀ (row : List (String × Option String)) (segs : List Seg),
      wellFormedB segs = true →
      (∀ kv ∈ row, braceFree kv.1 = true) →
      (∀ kv ∈ row, braceFree (kv.2.getD "") = true) →
      renderRow (flattenSegs segs) row = flattenSegs (segs.map (substSeg row)) := by
  intro row
  induction row with
  | nil =>
    intro segs _ _ _
    show flattenSegs segs = _
    rw [map_substSeg_nil]
  | cons kv row' ih =>
    intro segs hw hk hv
    have hstep : renderRow (flattenSegs segs) (kv :: row')
        = renderRow (PseoSite.pyReplace (flattenSegs segs) (placeholder kv.1) (kv.2.getD ""))
            row' := rfl
    rw [hstep,
      replace_flatten kv.1 (kv.2.getD "") (hk kv (List.mem_cons_self _ _)) segs hw,
      ih (segs.map (replaceHole kv.1 (kv.2.getD "")))
        (wellFormedB_map_replaceHole hw (hv kv (List.mem_cons_self _ _)))
        (fun e he => hk e (List.mem_cons_of_mem _ he))
        (fun e he => hv e (List.mem_cons_of_mem _ he)),
      List.map_map]
    have hfun : (substSeg row' ∘ replaceHole kv.1 (kv.2.getD ""))
        = substSeg (kv :: row') := by
      funext sg
      exact substSeg_replaceHole kv row' sg
    rw [hfun]

/-- Witness for the amended claim C3: the scenario template parsed into
segments; with columns slug and title the missing placeholder survives,
and with a missing column holding no value it becomes empty. -/
theorem claim_C3_amended_witness :
    renderRow "<h1>\x7b\x7btitle\x7d\x7d</h1><p>\x7b\x7bmissing\x7d\x7d</p>"
        [("slug", some "foo"), ("title", some "Foo")]
      = "<h1>Foo</h1><p>\x7b\x7bmissing\x7d\x7d</p>"
    ∧ renderRow "<h1>\x7b\x7btitle\x7d\x7d</h1><p>\x7b\x7bmissing\x7d\x7d</p>"
        [("slug", some "foo"), ("title", some "Foo"), ("missing", none)]
      = "<h1>Foo</h1><p></p>" := by
  have h1 := claim_C3_substitution_amended [("slug", some "foo"), ("title", some "Foo")]
      demoSegs (by decide) (by decide) (by decide)
  have h2 := claim_C3_substitution_amended
      [("slug", some "foo"), ("title", some "Foo"), ("missing", none)]
      demoSegs (by decide) (by decide) (by decide)
  constructor
  · rw [show ("<h1>\x7b\x7btitle\x7d\x7d</h1><p>\x7b\x7bmissing\x7d\x7d</p>" : String)
        = flattenSegs demoSegs from rfl, h1]
    decide
  · rw [show ("<h1>\x7b\x7btitle\x7d\x7d</h1><p>\x7b\x7bmissing\x7d\x7d</p>" : String)
        = flattenSegs demoSegs from rfl, h2]
    decide

end GenSite
